import Mathlib

/-!
Verification of the reservation-allocation and lease-reconciliation engine
of `dhcp_manager.py`.  The Python code is shallowly embedded: every Python
`str` is a Lean `String`, Python `int(...)` conversion is modelled at the
ASCII level (surrounding whitespace, an optional sign, underscore digit
grouping, and the `0x` prefix for base 16), dictionaries with fixed key
sets become structures, and raised exceptions become `Except` errors.
-/

namespace Dhcp

/-! ## Python string primitives (ASCII model) -/

/-- ASCII whitespace recognised by Python's `str.strip` and `int`. -/
def isPyWs (c : Char) : Bool :=
  c = ' ' || c = '\t' || c = '\n' || c = '\r' || c = '\x0b' || c = '\x0c'

/-- `str.lower` on one ASCII character. -/
def pyLowerChar (c : Char) : Char :=
  if 'A' ≤ c && c ≤ 'Z' then Char.ofNat (c.toNat + 32) else c

/-- `str.lower` (ASCII model). -/
def pyLower (s : String) : String :=
  ⟨s.data.map pyLowerChar⟩

/-- `str.replace(old, new)` for single-character arguments. -/
def pyReplaceChar (old new : Char) (s : String) : String :=
  ⟨s.data.map (fun c => if c = old then new else c)⟩

/-- `str.strip()` on a character list. -/
def pyStripList (cs : List Char) : List Char :=
  ((cs.dropWhile isPyWs).reverse.dropWhile isPyWs).reverse

/-- `str.strip()`. -/
def pyStrip (s : String) : String :=
  ⟨pyStripList s.data⟩

/-- Python truthiness of a string: non-empty. -/
def strTruthy (s : String) : Bool :=
  !s.data.isEmpty

/-- `str.split(sep)` on a character list: splits at every occurrence of
`sep`, keeping empty pieces, like Python. -/
def splitCharAux (sep : Char) : List Char → List (List Char)
  | [] => [[]]
  | c :: rest =>
    match splitCharAux sep rest with
    | [] => if c = sep then [[], []] else [[c]]
    | h :: t => if c = sep then [] :: h :: t else (c :: h) :: t

/-- `str.split(sep)` for a single-character separator. -/
def pySplit (sep : Char) (s : String) : List String :=
  (splitCharAux sep s.data).map (fun cs => ⟨cs⟩)

/-- Split a character list at the first occurrence of the (non-empty)
separator list, as Python's `str.split(sep, 1)` when `sep in s`. -/
def splitOnceAux (sep : List Char) : List Char → Option (List Char × List Char)
  | [] => none
  | c :: rest =>
    if sep.isPrefixOf (c :: rest) then
      some ([], (c :: rest).drop sep.length)
    else
      match splitOnceAux sep rest with
      | some (a, b) => some (c :: a, b)
      | none => none

/-- `sep in s` plus `s.split(sep, 1)`: `some (before, after)` at the first
occurrence of `sep`, `none` when `sep` does not occur. -/
def pySplitOnce (sep : String) (s : String) : Option (String × String) :=
  match splitOnceAux sep.data s.data with
  | some (a, b) => some (⟨a⟩, ⟨b⟩)
  | none => none

/-! ## Python integer conversion -/

/-- Decimal digit value. -/
def decVal (c : Char) : Option Nat :=
  if '0' ≤ c && c ≤ '9' then some (c.toNat - '0'.toNat) else none

/-- Hexadecimal digit value: a decimal digit, or a letter case with an
offset of ten. -/
def hexVal (c : Char) : Option Nat :=
  match decVal c with
  | some d => some d
  | none =>
    if 'a' ≤ c && c ≤ 'f' then some (10 + (c.toNat - 'a'.toNat))
    else if 'A' ≤ c && c ≤ 'F' then some (10 + (c.toNat - 'A'.toNat))
    else none

/-- Digits after the first one: Python allows a single underscore strictly
between digits. -/
def parseDigitsAux (val : Char → Option Nat) (base : Nat) : Nat → List Char → Option Nat
  | acc, [] => some acc
  | acc, c :: rest =>
    if c = '_' then
      match rest with
      | [] => none
      | c2 :: rest2 =>
        match val c2 with
        | some d => parseDigitsAux val base (acc * base + d) rest2
        | none => none
    else
      match val c with
      | some d => parseDigitsAux val base (acc * base + d) rest
      | none => none

/-- A non-empty digit group, which must start with a digit. -/
def parseDigits (val : Char → Option Nat) (base : Nat) : List Char → Option Nat
  | [] => none
  | c :: rest =>
    match val c with
    | some d => parseDigitsAux val base d rest
    | none => none

/-- Consume at most one leading sign. -/
def consumeSign : List Char → Bool × List Char
  | [] => (false, [])
  | c :: rest =>
    if c = '+' then (false, rest)
    else if c = '-' then (true, rest)
    else (false, c :: rest)

/-- The digit phase of `int(s)`: negate when a minus sign was consumed. -/
def pyIntAfterSign (neg : Bool) (cs : List Char) : Option Int :=
  match parseDigits decVal 10 cs with
  | some n => some (if neg then -(n : Int) else (n : Int))
  | none => none

/-- Python `int(s)` (base 10) on ASCII input: optional surrounding
whitespace, an optional sign, then decimal digits with optional single
underscores between digits. -/
def pyInt (s : String) : Option Int :=
  pyIntAfterSign (consumeSign (pyStripList s.data)).1 (consumeSign (pyStripList s.data)).2

/-- Consume an optional `0x` / `0X` prefix (base 16), allowing the single
underscore Python permits right after the prefix. -/
def consumeHexPrefix : List Char → List Char
  | [] => []
  | [c] => [c]
  | c0 :: c1 :: rest =>
    if c0 = '0' && (c1 = 'x' || c1 = 'X') then
      match rest with
      | '_' :: c2 :: rest2 => c2 :: rest2
      | _ => rest
    else c0 :: c1 :: rest

/-- The prefix-and-digit phase of `int(s, 16)`. -/
def pyIntHexAfterSign (neg : Bool) (cs : List Char) : Option Int :=
  match parseDigits hexVal 16 (consumeHexPrefix cs) with
  | some n => some (if neg then -(n : Int) else (n : Int))
  | none => none

/-- Python `int(s, 16)` on ASCII input. -/
def pyIntHex (s : String) : Option Int :=
  pyIntHexAfterSign (consumeSign (pyStripList s.data)).1 (consumeSign (pyStripList s.data)).2

/-! ## Integer-to-string conversion -/

/-- The decimal digit character for `n < 10`. -/
def digitChar (n : Nat) : Char :=
  Char.ofNat ('0'.toNat + n)

/-- Fuel-indexed decimal printing of a natural number. -/
def natToStrAux : Nat → Nat → List Char
  | 0, _ => []
  | fuel + 1, n =>
    if n < 10 then [digitChar n]
    else natToStrAux fuel (n / 10) ++ [digitChar (n % 10)]

/-- Decimal string of a natural number, as Python `str`. -/
def natToStr (n : Nat) : String :=
  ⟨natToStrAux (n + 1) n⟩

/-- Python `str` of an integer. -/
def intToStr (i : Int) : String :=
  if i < 0 then ⟨'-' :: (natToStr i.natAbs).data⟩ else natToStr i.natAbs

/-! ## Address and MAC validation (`_validate_ip_address`,
`_validate_mac_address`, `_ip_to_int` of `dhcp_manager.py`) -/

/-- `_validate_ip_address`: split on dots, require four components, each
accepted by `int(...)` with value in `[0, 255]`. -/
def validate_ip_address (ip : String) : Bool :=
  let parts := pySplit '.' ip
  if parts.length = 4 then
    parts.all (fun p =>
      match pyInt p with
      | some n => 0 ≤ n && n ≤ 255
      | none => false)
  else false

/-- `_validate_mac_address`: replace colons by hyphens, split on hyphens,
require six components, each accepted by `int(..., 16)` (no range check). -/
def validate_mac_address (mac : String) : Bool :=
  let parts := pySplit '-' (pyReplaceChar ':' '-' mac)
  parts.length = 6 && parts.all (fun p => (pyIntHex p).isSome)

/-- `_ip_to_int`: dotted quad to integer; `none` when the shape or a
component conversion fails.  No per-octet range check is performed. -/
def ip_to_int (ip : String) : Option Int :=
  match pySplit '.' ip with
  | [a, b, c, d] =>
    match pyInt a, pyInt b, pyInt c, pyInt d with
    | some x, some y, some z, some w =>
      some (x * 16777216 + y * 65536 + z * 256 + w)
    | _, _, _, _ => none
  | _ => none

/-- `_get_reserved_range`: the fixed reserved range. -/
def get_reserved_range : String × String :=
  ("192.168.123.2", "192.168.123.49")

/-! ## Configuration document model

The engine only touches `config['Dhcp4']['subnet4']`, a list of subnets,
each with optional `pools` and `reservations` keys.  The defensive
`.get(..., default)` accesses of the Python code become `Option` fields
with `getD` at exactly the places the source uses a default; key-presence
tests (`'reservations' in subnet`) test the `Option`. -/

/-- One entry of a subnet's `reservations` list. -/
structure Reservation where
  hw : Option String
  ip : Option String
  hostname : Option String
deriving DecidableEq, Repr

/-- One entry of a subnet's `pools` list. -/
structure Pool where
  pool : Option String
deriving DecidableEq, Repr

/-- One entry of the `subnet4` list. -/
structure Subnet where
  pools : Option (List Pool)
  reservations : Option (List Reservation)
deriving DecidableEq, Repr

/-- The configuration document restricted to the fields the engine reads;
a missing `Dhcp4` section or `subnet4` key is the empty list (the
`.get('Dhcp4', \x7b\x7d).get('subnet4', [])` default). -/
structure Doc where
  subnet4 : List Subnet
deriving DecidableEq, Repr

/-- The normalised reservation dictionaries built by `get_reservations`. -/
structure RView where
  hw : String
  ip : String
  hostname : String
deriving DecidableEq, Repr

/-- `get_reservations`: flatten the reservations of every subnet,
defaulting each field to the empty string. -/
def get_reservations (doc : Doc) : List RView :=
  (doc.subnet4.map (fun sn =>
    (sn.reservations.getD []).map (fun r =>
      RView.mk (r.hw.getD ("")) (r.ip.getD ("")) (r.hostname.getD (""))))).flatten

/-- `_get_pool_range`: the first pool string of the first subnet, split at
the first occurrence of the separator and stripped; `(none, none)` when
there is no subnet, no pool, or no separator occurrence. -/
def get_pool_range (doc : Doc) : Option String × Option String :=
  match doc.subnet4 with
  | [] => (none, none)
  | sn :: _ =>
    match sn.pools.getD [] with
    | [] => (none, none)
    | p :: _ =>
      match pySplitOnce (" - ") (p.pool.getD ("")) with
      | some (a, b) => (some (pyStrip a), some (pyStrip b))
      | none => (none, none)

/-- `_validate_ip_in_pool`: format check, then `True` when the pool range
is missing or one of its ends is an empty (falsy) string, else closed
interval membership on the integer ordinals. -/
def validate_ip_in_pool (doc : Doc) (ip : String) : Bool :=
  if !validate_ip_address ip then false
  else
    let r := get_pool_range doc
    let sOk := match r.1 with | some s => strTruthy s | none => false
    let eOk := match r.2 with | some s => strTruthy s | none => false
    if !sOk || !eOk then true
    else
      match ip_to_int ip, ip_to_int ((r.1).getD ("")), ip_to_int ((r.2).getD ("")) with
      | some i, some si, some ei => si ≤ i && i ≤ ei
      | _, _, _ => false

/-- `_validate_ip_in_reserved_range`: format check, then closed interval
membership in the fixed reserved range. -/
def validate_ip_in_reserved_range (ip : String) : Bool :=
  if !validate_ip_address ip then false
  else
    match ip_to_int ip, ip_to_int get_reserved_range.1, ip_to_int get_reserved_range.2 with
    | some i, some si, some ei => si ≤ i && i ≤ ei
    | _, _, _ => false

/-- The dotted-quad string the allocation loop builds from an ordinal
(`f"..."` over the shifted and masked octets). -/
def ipIntToStr (n : Nat) : String :=
  natToStr ((n >>> 24) % 256) ++ (".") ++ natToStr ((n >>> 16) % 256) ++ (".") ++
    natToStr ((n >>> 8) % 256) ++ (".") ++ natToStr (n % 256)

/-- `_get_next_available_reserved_ip`: scan the reserved range from its
highest ordinal down to its lowest and return the first dotted-quad string
not used by an existing reservation. -/
def get_next_available_reserved_ip (reservations : List RView) : Option String :=
  let used := reservations.map (fun r => r.ip)
  match ip_to_int get_reserved_range.1, ip_to_int get_reserved_range.2 with
  | some s, some e =>
    ((List.range (e - s + 1).toNat).map (fun i => ipIntToStr (e - i).toNat)).find?
      (fun ipStr => !used.contains ipStr)
  | _, _ => none

/-! ## Reservation engine -/

/-- The error taxonomy of the engine, one variant per `raise` site. -/
inductive DhcpError
  | invalidMac (mac : String)
  | duplicateMac
  | rangeExhausted
  | invalidAddress (ip : String)
  | outOfRange (ip start stop : String)
  | duplicateAddress
  | noSubnet
  | notFound
  | retrievalFailed
deriving DecidableEq, Repr

/-- The address-selection policy of `add_reservation`: the resolved
address, or the error aborting the call. -/
def resolve_ip (existing : List RView) (doc : Doc) (ip? : Option String) :
    Except DhcpError String :=
  let auto : Except DhcpError String :=
    match get_next_available_reserved_ip existing with
    | some ip => .ok ip
    | none => .error .rangeExhausted
  match ip? with
  | none => auto
  | some s =>
    if !strTruthy s then auto
    else if !validate_ip_address s then .error (.invalidAddress s)
    else if validate_ip_in_pool doc s then auto
    else if validate_ip_in_reserved_range s then .ok s
    else .error (.outOfRange s get_reserved_range.1 get_reserved_range.2)

/-- The `hostname` key of the new entry: present only when the supplied
hostname is truthy. -/
def hostname_field (hostname? : Option String) : Option String :=
  match hostname? with
  | some h => if strTruthy h then some h else none
  | none => none

/-- `add_reservation`: validate the MAC, reject duplicates, resolve the
address, reject address duplicates (both against the listed reservations
and the in-memory first subnet), then append to the first subnet.  On
success it returns the mutated document and the new reservation entry. -/
def add_reservation (doc : Doc) (hw_address : String) (ip? : Option String)
    (hostname? : Option String) : Except DhcpError (Doc × Reservation) :=
  if !validate_mac_address hw_address then .error (.invalidMac hw_address)
  else
    let existing := get_reservations doc
    if existing.any (fun r => pyLower r.hw == pyLower hw_address) then .error .duplicateMac
    else
      match resolve_ip existing doc ip? with
      | .error e => .error e
      | .ok ip_address =>
        if existing.any (fun r => r.ip == ip_address) then .error .duplicateAddress
        else
          match doc.subnet4 with
          | [] => .error .noSubnet
          | subnet :: rest =>
            let resList := subnet.reservations.getD []
            match resList.find? (fun r =>
                pyLower (r.hw.getD ("")) == pyLower hw_address ||
                r.ip.getD ("") == ip_address) with
            | some r =>
              if pyLower (r.hw.getD ("")) == pyLower hw_address then .error .duplicateMac
              else .error .duplicateAddress
            | none =>
              let newRes : Reservation :=
                { hw := some (pyLower hw_address)
                  ip := some ip_address
                  hostname := hostname_field hostname? }
              let subnet' := { subnet with reservations := some (resList ++ [newRes]) }
              .ok ({ doc with subnet4 := subnet' :: rest }, newRes)

/-- The removal/update match predicate: identifier equals the stored
hardware address case-insensitively, or the stored address exactly. -/
def matches_identifier (identifier : String) (r : Reservation) : Bool :=
  pyLower (r.hw.getD ("")) == pyLower identifier || r.ip.getD ("") == identifier

/-- The subnet loop of `remove_reservation`: in each subnet having a
`reservations` key, drop every matching entry; stop (successfully) at the
first subnet where the list shrank. -/
def remove_aux (identifier : String) : List Subnet → List Subnet × Bool
  | [] => ([], false)
  | sn :: rest =>
    match sn.reservations with
    | none =>
      let r := remove_aux identifier rest
      (sn :: r.1, r.2)
    | some rs =>
      let rs' := rs.filter (fun r => !matches_identifier identifier r)
      let sn' := { sn with reservations := some rs' }
      if rs'.length < rs.length then (sn' :: rest, true)
      else
        let r := remove_aux identifier rest
        (sn' :: r.1, r.2)

/-- `remove_reservation`: returns the mutated document and whether any
entry was removed. -/
def remove_reservation (doc : Doc) (identifier : String) : Doc × Bool :=
  let r := remove_aux identifier doc.subnet4
  ({ doc with subnet4 := r.1 }, r.2)

/-- Rewrite the first matching entry of one reservation list. -/
def update_first (identifier new_ip : String) : List Reservation → Option (List Reservation)
  | [] => none
  | r :: rs =>
    if matches_identifier identifier r then some ({ r with ip := some new_ip } :: rs)
    else (update_first identifier new_ip rs).map (fun rs' => r :: rs')

/-- The subnet loop of `update_reservation_ip`: rewrite the first matching
entry of the first subnet that contains one. -/
def update_aux (identifier new_ip : String) : List Subnet → List Subnet × Bool
  | [] => ([], false)
  | sn :: rest =>
    match sn.reservations with
    | none =>
      let r := update_aux identifier new_ip rest
      (sn :: r.1, r.2)
    | some rs =>
      match update_first identifier new_ip rs with
      | some rs' => ({ sn with reservations := some rs' } :: rest, true)
      | none =>
        let r := update_aux identifier new_ip rest
        (sn :: r.1, r.2)

/-- `update_reservation_ip`: format check, reserved-range check (the pool
range plays no role), duplicate check exempting the updated entry, then
rewrite the first matching reservation and re-read it. -/
def update_reservation_ip (doc : Doc) (identifier new_ip : String) :
    Except DhcpError (Doc × RView) :=
  if !validate_ip_address new_ip then .error (.invalidAddress new_ip)
  else if !validate_ip_in_reserved_range new_ip then
    .error (.outOfRange new_ip get_reserved_range.1 get_reserved_range.2)
  else
    let existing := get_reservations doc
    if existing.any (fun r =>
        r.ip == new_ip && !(pyLower r.hw == pyLower identifier) && !(r.ip == identifier)) then
      .error .duplicateAddress
    else
      match update_aux identifier new_ip doc.subnet4 with
      | (_, false) => .error .notFound
      | (sns, true) =>
        let doc' : Doc := { subnet4 := sns }
        match (get_reservations doc').find? (fun r =>
            pyLower r.hw == pyLower identifier || r.ip == new_ip) with
        | some r => .ok (doc', r)
        | none => .error .retrievalFailed

/-! ## Lease reconciliation (`get_leases`)

A raw lease row is one record of the CSV lease database, with the fields
the reconciler reads; a missing column is `none`, like `row.get(...)`. -/

/-- One raw row of the lease database. -/
structure LeaseRow where
  address : Option String
  hwaddr : Option String
  expire : Option String
  state : Option String
  hostname : Option String
deriving DecidableEq, Repr

/-- One entry of the reconciled lease view (the output dictionaries,
after the internal expire field is dropped). -/
structure LeaseView where
  ip : String
  hw : String
  hostname : String
  expire : String
  state : String
deriving DecidableEq, Repr

/-- `expire_time`: an absent or empty field defaults to `0`; a present,
non-empty, unparseable field makes the row skip (`none`). -/
def lease_expire_val (row : LeaseRow) : Option Int :=
  match row.expire with
  | some s => if strTruthy s then pyInt s else some 0
  | none => some 0

/-- `state`: an absent or empty field defaults to `1`. -/
def lease_state_val (row : LeaseRow) : Option Int :=
  match row.state with
  | some s => if strTruthy s then pyInt s else some 1
  | none => some 1

/-- The row filter of `get_leases`: `some (mac, expireTime, state)` when a
row survives (parseable fields, `state == 0`, `expire > now`, non-empty
hardware address); `none` when it is skipped. -/
def lease_row_qual (now : Int) (row : LeaseRow) : Option (String × Int × Int) :=
  match lease_expire_val row, lease_state_val row with
  | some e, some st =>
    if st == 0 && e > now then
      if strTruthy (row.hwaddr.getD ("")) then some (row.hwaddr.getD (""), e, st) else none
    else none
  | _, _ => none

/-- The view dictionary stored for a surviving row. -/
def lease_view_of (row : LeaseRow) (mac : String) (e st : Int) : LeaseView :=
  { ip := row.address.getD ("")
    hw := mac
    hostname := row.hostname.getD ("")
    expire := intToStr e
    state := intToStr st }

/-- Replace the value at a key of an association list, keeping its
position (Python dict assignment on an existing key). -/
def assocReplace (k : String) (v : α) : List (String × α) → List (String × α)
  | [] => []
  | (k0, v0) :: rest =>
    if k0 == k then (k0, v) :: rest else (k0, v0) :: assocReplace k v rest

/-- One step of the deduplicating fold over rows: insert a surviving row,
or replace the entry of its hardware address when the new expire time is
strictly greater. -/
def lease_step (now : Int) (acc : List (String × LeaseView × Int)) (row : LeaseRow) :
    List (String × LeaseView × Int) :=
  match lease_row_qual now row with
  | none => acc
  | some (mac, e, st) =>
    match acc.lookup mac with
    | none => acc ++ [(mac, lease_view_of row mac e st, e)]
    | some (_, e0) =>
      if e > e0 then assocReplace mac (lease_view_of row mac e st, e) acc else acc

/-- `get_leases`: fold the rows into a dictionary keyed by hardware
address, then emit the views in dictionary (insertion) order. -/
def get_leases (rows : List LeaseRow) (now : Int) : List LeaseView :=
  ((rows.foldl (lease_step now) []).map (fun p => p.2.1))

/-! ## Configuration loading (`get_config`, `_validate_config_structure`)

The parsed document is a JSON tree; `json.loads` itself is an external
library call, so the loader is parameterised by a parse function, and a
small concrete parser below instantiates it on closed inputs. -/

/-- A parsed configuration tree (the subset of JSON values the engine
meets). -/
inductive JVal where
  | jnull
  | jbool (b : Bool)
  | jnum (n : Int)
  | jstr (s : String)
  | jarr (xs : List JVal)
  | jobj (kvs : List (String × JVal))

/-- The scan behind Python `str.find`: index of the first occurrence,
`-1` when absent. -/
def findCharAux (c : Char) : List Char → Int → Int
  | [], _ => -1
  | x :: rest, i => if x = c then i else findCharAux c rest (i + 1)

/-- Index of the first occurrence of a character, `-1` when absent
(Python `str.find`). -/
def strFindChar (c : Char) (s : String) : Int :=
  findCharAux c s.data 0

/-- The scan behind Python `str.rfind`: index of the last occurrence,
keeping the best index seen so far. -/
def rfindCharAux (c : Char) : List Char → Int → Int → Int
  | [], _, best => best
  | x :: rest, i, best => rfindCharAux c rest (i + 1) (if x = c then i else best)

/-- Index of the last occurrence of a character, `-1` when absent
(Python `str.rfind`). -/
def strRFindChar (c : Char) (s : String) : Int :=
  rfindCharAux c s.data 0 (-1)

/-- The brace-extraction step of `get_config`: the substring from the
first opening brace to the last closing brace, failing when either is
absent or the last closing brace does not come after the first opening
brace. -/
def extract_json (s : String) : Except String String :=
  let fb := strFindChar '{' s
  let lb := strRFindChar '}' s
  if fb == -1 || lb == -1 || lb ≤ fb then
    .error ("No valid JSON object found in config file")
  else
    .ok ⟨(s.data.drop fb.toNat).take (lb.toNat + 1 - fb.toNat)⟩

/-- `get_config`, with the JSON parser abstracted: extract the object
text, then parse it; no structural validation is performed here. -/
def get_config (parse : String → Option JVal) (raw : String) : Except String JVal :=
  match extract_json raw with
  | .error e => .error e
  | .ok body =>
    match parse body with
    | some j => .ok j
    | none => .error ("Invalid JSON in config file")

/-- `_validate_config_structure`: the document must be a mapping whose
key `Dhcp4` holds a mapping that has a `subnet4` key.  Neither the type
nor the non-emptiness of the subnet list is checked. -/
def validate_config_structure (j : JVal) : Bool :=
  match j with
  | .jobj kvs =>
    match kvs.lookup ("Dhcp4") with
    | some (JVal.jobj kvs2) => kvs2.any (fun kv => kv.1 == "subnet4")
    | some _ => false
    | none => false
  | _ => false

/-- JSON insignificant whitespace. -/
def isJsonWs (c : Char) : Bool :=
  c = ' ' || c = '\t' || c = '\n' || c = '\r'

/-- Drop JSON whitespace. -/
def jsonWs (cs : List Char) : List Char :=
  cs.dropWhile isJsonWs

/-- A JSON string body up to the closing quote (no escape sequences,
which the closed inputs used below avoid). -/
def pStringRaw : List Char → Option (List Char × List Char)
  | [] => none
  | '"' :: rest => some ([], rest)
  | '\\' :: _ => none
  | c :: rest =>
    match pStringRaw rest with
    | some (s, r) => some (c :: s, r)
    | none => none

/-- A JSON integer literal (optional minus, then decimal digits). -/
def pNumber (cs : List Char) : Option (Int × List Char) :=
  let core : List Char → Option (Int × List Char) := fun ds =>
    let digits := ds.takeWhile (fun c => (decVal c).isSome)
    let rest := ds.dropWhile (fun c => (decVal c).isSome)
    match parseDigits decVal 10 digits with
    | some n => some ((n : Int), rest)
    | none => none
  match cs with
  | '-' :: rest =>
    match core rest with
    | some (n, r) => some (-n, r)
    | none => none
  | _ => core cs

mutual

/-- Fuel-indexed recursive-descent JSON value parser. -/
def pValue : Nat → List Char → Option (JVal × List Char)
  | 0, _ => none
  | fuel + 1, cs =>
    match jsonWs cs with
    | [] => none
    | c :: rest =>
      if c = '"' then
        match pStringRaw rest with
        | some (s, r) => some (.jstr ⟨s⟩, r)
        | none => none
      else if c = '{' then
        match jsonWs rest with
        | '}' :: r2 => some (.jobj [], r2)
        | _ => pMembers fuel rest
      else if c = '[' then
        match jsonWs rest with
        | ']' :: r2 => some (.jarr [], r2)
        | _ => pElems fuel rest
      else if c = 't' then
        match rest with
        | 'r' :: 'u' :: 'e' :: r2 => some (.jbool true, r2)
        | _ => none
      else if c = 'f' then
        match rest with
        | 'a' :: 'l' :: 's' :: 'e' :: r2 => some (.jbool false, r2)
        | _ => none
      else if c = 'n' then
        match rest with
        | 'u' :: 'l' :: 'l' :: r2 => some (.jnull, r2)
        | _ => none
      else
        match pNumber (c :: rest) with
        | some (n, r) => some (.jnum n, r)
        | none => none

/-- Object members, consuming the closing brace. -/
def pMembers : Nat → List Char → Option (JVal × List Char)
  | 0, _ => none
  | fuel + 1, cs =>
    match jsonWs cs with
    | '"' :: rest =>
      match pStringRaw rest with
      | some (k, r1) =>
        match jsonWs r1 with
        | ':' :: r2 =>
          match pValue fuel r2 with
          | some (v, r3) =>
            match jsonWs r3 with
            | ',' :: r4 =>
              match pMembers fuel r4 with
              | some (.jobj kvs, r5) => some (.jobj ((⟨k⟩, v) :: kvs), r5)
              | _ => none
            | '}' :: r4 => some (.jobj [(⟨k⟩, v)], r4)
            | _ => none
          | none => none
        | _ => none
      | none => none
    | _ => none

/-- Array elements, consuming the closing bracket. -/
def pElems : Nat → List Char → Option (JVal × List Char)
  | 0, _ => none
  | fuel + 1, cs =>
    match pValue fuel cs with
    | some (v, r1) =>
      match jsonWs r1 with
      | ',' :: r2 =>
        match pElems fuel r2 with
        | some (.jarr xs, r3) => some (.jarr (v :: xs), r3)
        | _ => none
      | ']' :: r2 => some (.jarr [v], r2)
      | _ => none
    | none => none

end

/-- A concrete JSON parser (a strict subset of `json.loads`, agreeing
with it on the closed inputs used in the witnesses below): the whole
input must be one value followed only by whitespace. -/
def miniParse (s : String) : Option JVal :=
  match pValue (s.data.length + 1) s.data with
  | some (j, rest) => if (jsonWs rest).isEmpty then some j else none
  | none => none

/-! ## Specification-side predicates

These render the claim language (plain decimal / hexadecimal components)
independently of the Python parsing model, for comparison with the code's
validators. -/

/-- A decimal digit. -/
def isDecDigit (c : Char) : Bool :=
  '0' ≤ c && c ≤ '9'

/-- A hexadecimal digit. -/
def isHexDigit (c : Char) : Bool :=
  ('0' ≤ c && c ≤ '9') || ('a' ≤ c && c ≤ 'f') || ('A' ≤ c && c ≤ 'F')

/-- Value of a plain decimal digit string. -/
def decListVal (cs : List Char) : Nat :=
  cs.foldl (fun a c => a * 10 + (decVal c).getD 0) 0

/-- Value of a plain hexadecimal digit string. -/
def hexListVal (cs : List Char) : Nat :=
  cs.foldl (fun a c => a * 16 + (hexVal c).getD 0) 0

/-- The claim's shape for a well-formed address: exactly four
dot-separated plain decimal components, each with value in `[0, 255]`. -/
def isDottedQuadSpec (s : String) : Bool :=
  let parts := pySplit '.' s
  parts.length = 4 && parts.all (fun p =>
    !p.data.isEmpty && p.data.all isDecDigit && decListVal p.data ≤ 255)

/-- Split on either delimiter character directly (the claim's view of a
colon- or hyphen-delimited MAC). -/
def splitMacParts (s : String) : List String :=
  (splitCharAux '-' (s.data.map (fun c => if c = ':' then '-' else c))).map (fun cs => ⟨cs⟩)

/-- The claim's shape for a MAC: six components, each a plain hexadecimal
byte (one or more hex digits with value at most 255). -/
def isMacSpec (s : String) : Bool :=
  let parts := splitMacParts s
  parts.length = 6 && parts.all (fun p =>
    !p.data.isEmpty && p.data.all isHexDigit && hexListVal p.data ≤ 255)

/-- The 48 dotted-quad strings of the reserved range in the scan order of
the allocator: highest ordinal first. -/
def reservedIpStrs : List String :=
  (List.range 48).map (fun i => ipIntToStr (3232267057 - i))

/-! ## Helper lemmas: character classes -/

theorem ws_not_decDigit {c : Char} (h : isPyWs c = true) : isDecDigit c = false := by
  simp only [isPyWs, Bool.or_eq_true_iff, decide_eq_true_eq] at h
  rcases h with ((((h | h) | h) | h) | h) | h <;> subst h <;> decide

theorem ws_not_hexDigit {c : Char} (h : isPyWs c = true) : isHexDigit c = false := by
  simp only [isPyWs, Bool.or_eq_true_iff, decide_eq_true_eq] at h
  rcases h with ((((h | h) | h) | h) | h) | h <;> subst h <;> decide

theorem decDigit_not_ws {c : Char} (h : isDecDigit c = true) : isPyWs c = false := by
  cases hws : isPyWs c with
  | false => rfl
  | true =>
    rw [ws_not_decDigit hws] at h
    exact absurd h (by simp)

theorem hexDigit_not_ws {c : Char} (h : isHexDigit c = true) : isPyWs c = false := by
  cases hws : isPyWs c with
  | false => rfl
  | true =>
    rw [ws_not_hexDigit hws] at h
    exact absurd h (by simp)

theorem decDigit_decVal {c : Char} (h : isDecDigit c = true) : (decVal c).isSome = true := by
  unfold isDecDigit at h
  unfold decVal
  rw [h]
  rfl

theorem hexDigit_hexVal {c : Char} (h : isHexDigit c = true) : (hexVal c).isSome = true := by
  unfold isHexDigit at h
  unfold hexVal decVal
  cases h1 : ('0' ≤ c && c ≤ '9' : Bool) <;> cases h2 : ('a' ≤ c && c ≤ 'f' : Bool) <;>
    cases h3 : ('A' ≤ c && c ≤ 'F' : Bool) <;> simp [h1, h2, h3] <;>
    simp only [h1, h2, h3, Bool.or_self, Bool.or_false, Bool.false_or] at h <;>
    exact absurd h (by simp)

theorem decDigit_ne_plus {c : Char} (h : isDecDigit c = true) : c ≠ '+' := by
  rintro rfl; revert h; decide

theorem decDigit_ne_minus {c : Char} (h : isDecDigit c = true) : c ≠ '-' := by
  rintro rfl; revert h; decide

theorem hexDigit_ne_plus {c : Char} (h : isHexDigit c = true) : c ≠ '+' := by
  rintro rfl; revert h; decide

theorem hexDigit_ne_minus {c : Char} (h : isHexDigit c = true) : c ≠ '-' := by
  rintro rfl; revert h; decide

theorem hexDigit_ne_x {c : Char} (h : isHexDigit c = true) : c ≠ 'x' ∧ c ≠ 'X' := by
  constructor <;> · rintro rfl; revert h; decide

theorem decVal_underscore : decVal '_' = none := by decide

theorem hexVal_underscore : hexVal '_' = none := by decide

/-! ## Helper lemmas: Python integer parsing on plain digit strings -/

theorem dropWhile_all_false {p : Char → Bool} :
    ∀ {cs : List Char}, (∀ c ∈ cs, p c = false) → cs.dropWhile p = cs
  | [], _ => rfl
  | c :: rest, h => by
    have hc : p c = false := h c (by simp)
    simp [List.dropWhile_cons, hc]

theorem pyStripList_id {cs : List Char} (h : ∀ c ∈ cs, isPyWs c = false) :
    pyStripList cs = cs := by
  unfold pyStripList
  rw [dropWhile_all_false h, dropWhile_all_false (fun c hc => h c (by simpa using hc)),
    List.reverse_reverse]

theorem consumeSign_no_sign {c : Char} {rest : List Char} (h1 : c ≠ '+') (h2 : c ≠ '-') :
    consumeSign (c :: rest) = (false, c :: rest) := by
  simp [consumeSign, h1, h2]

theorem parseDigitsAux_all_digits {val : Char → Option Nat} {base : Nat}
    (hval : val '_' = none) :
    ∀ (cs : List Char) (acc : Nat), (∀ c ∈ cs, (val c).isSome = true) →
      parseDigitsAux val base acc cs =
        some (cs.foldl (fun a c => a * base + (val c).getD 0) acc)
  | [], acc, _ => rfl
  | c :: rest, acc, h => by
    have hc : (val c).isSome = true := h c (by simp)
    have hcne : ¬ c = '_' := by
      rintro rfl
      rw [hval] at hc
      exact Bool.false_ne_true hc
    obtain ⟨d, hd⟩ := Option.isSome_iff_exists.mp hc
    rw [parseDigitsAux.eq_def]
    simp only [if_neg hcne, hd]
    rw [parseDigitsAux_all_digits hval rest (acc * base + d) (fun x hx => h x (by simp [hx]))]
    simp [List.foldl_cons, hd]

theorem parseDigits_all_digits {val : Char → Option Nat} {base : Nat}
    (hval : val '_' = none) (cs : List Char) (hne : cs ≠ [])
    (h : ∀ c ∈ cs, (val c).isSome = true) :
    parseDigits val base cs =
      some (cs.foldl (fun a c => a * base + (val c).getD 0) 0) := by
  match cs with
  | [] => exact absurd rfl hne
  | c :: rest =>
    have hc : (val c).isSome = true := h c (by simp)
    obtain ⟨d, hd⟩ := Option.isSome_iff_exists.mp hc
    simp only [parseDigits]
    rw [hd]
    show parseDigitsAux val base d rest = _
    rw [parseDigitsAux_all_digits hval rest d (fun x hx => h x (by simp [hx]))]
    simp [List.foldl_cons, hd]

/-- On a non-empty plain decimal digit string, `int(...)` succeeds with
the digits' value. -/
theorem pyInt_digits {cs : List Char} (hne : cs ≠ []) (h : ∀ c ∈ cs, isDecDigit c = true) :
    pyInt ⟨cs⟩ = some (decListVal cs : Int) := by
  obtain ⟨c, rest, rfl⟩ : ∃ c rest, cs = c :: rest := by
    cases cs with
    | nil => exact absurd rfl hne
    | cons c rest => exact ⟨c, rest, rfl⟩
  show pyIntAfterSign (consumeSign (pyStripList (c :: rest))).1
    (consumeSign (pyStripList (c :: rest))).2 = _
  rw [pyStripList_id (fun x hx => decDigit_not_ws (h x hx)),
    consumeSign_no_sign (decDigit_ne_plus (h c (by simp))) (decDigit_ne_minus (h c (by simp)))]
  show pyIntAfterSign false (c :: rest) = _
  simp only [pyIntAfterSign]
  rw [parseDigits_all_digits decVal_underscore (c :: rest) (by simp)
    (fun x hx => decDigit_decVal (h x hx))]
  rfl

/-- On a non-empty plain hexadecimal digit string, `int(..., 16)` succeeds
with the digits' value. -/
theorem pyIntHex_digits {cs : List Char} (hne : cs ≠ []) (h : ∀ c ∈ cs, isHexDigit c = true) :
    pyIntHex ⟨cs⟩ = some (hexListVal cs : Int) := by
  obtain ⟨c, rest, rfl⟩ : ∃ c rest, cs = c :: rest := by
    cases cs with
    | nil => exact absurd rfl hne
    | cons c rest => exact ⟨c, rest, rfl⟩
  show pyIntHexAfterSign (consumeSign (pyStripList (c :: rest))).1
    (consumeSign (pyStripList (c :: rest))).2 = _
  rw [pyStripList_id (fun x hx => hexDigit_not_ws (h x hx)),
    consumeSign_no_sign (hexDigit_ne_plus (h c (by simp))) (hexDigit_ne_minus (h c (by simp)))]
  show pyIntHexAfterSign false (c :: rest) = _
  have hpre : consumeHexPrefix (c :: rest) = c :: rest := by
    cases rest with
    | nil => rfl
    | cons c1 rest1 =>
      have hx := hexDigit_ne_x (h c1 (by simp))
      simp only [consumeHexPrefix]
      rw [if_neg]
      simp only [Bool.and_eq_true_iff, Bool.or_eq_true_iff, decide_eq_true_eq]
      rintro ⟨-, hc1 | hc1⟩
      · exact hx.1 hc1
      · exact hx.2 hc1
  simp only [pyIntHexAfterSign]
  rw [hpre, parseDigits_all_digits hexVal_underscore (c :: rest) (by simp)
    (fun x hx => hexDigit_hexVal (h x hx))]
  rfl

/-! ## Helper lemmas: `find?` as a first-match search -/

theorem find?_eq_some_iff_split {α : Type _} (l : List α) (p : α → Bool) (a : α) :
    l.find? p = some a ↔
      ∃ l1 l2, l = l1 ++ a :: l2 ∧ p a = true ∧ ∀ x ∈ l1, p x = false := by
  induction l with
  | nil => simp
  | cons b rest ih =>
    cases hb : p b with
    | true =>
      rw [List.find?_cons_of_pos _ hb]
      constructor
      · intro h
        have hba : b = a := by injection h
        subst hba
        exact ⟨[], rest, rfl, hb, by simp⟩
      · rintro ⟨l1, l2, hsplit, hpa, hl1⟩
        cases l1 with
        | nil =>
          simp only [List.nil_append] at hsplit
          injection hsplit with h1 h2
          rw [h1]
        | cons y l1t =>
          injection hsplit with h1 h2
          subst h1
          have := hl1 b (by simp)
          rw [hb] at this
          exact absurd this (by simp)
    | false =>
      rw [List.find?_cons_of_neg _ (by simp [hb])]
      rw [ih]
      constructor
      · rintro ⟨l1, l2, rfl, hpa, hl1⟩
        refine ⟨b :: l1, l2, rfl, hpa, ?_⟩
        intro x hx
        rcases List.mem_cons.mp hx with rfl | hx
        · exact hb
        · exact hl1 x hx
      · rintro ⟨l1, l2, hsplit, hpa, hl1⟩
        cases l1 with
        | nil =>
          simp only [List.nil_append] at hsplit
          injection hsplit with h1 h2
          subst h1
          rw [hb] at hpa
          exact absurd hpa (by simp)
        | cons y l1t =>
          injection hsplit with h1 h2
          subst h1
          exact ⟨l1t, l2, h2, hpa, fun x hx => hl1 x (by simp [hx])⟩

theorem list_split_at {α : Type _} {l : List α} {i : Nat} {a : α} (h : l[i]? = some a) :
    l = l.take i ++ a :: l.drop (i + 1) := by
  obtain ⟨hlen, rfl⟩ := List.getElem?_eq_some.mp h
  conv_lhs => rw [← List.take_append_drop i l]
  congr 1
  exact (List.getElem_cons_drop l i hlen).symm

theorem mem_take_iff_getElem {α : Type _} (l : List α) (i : Nat) (x : α) :
    x ∈ l.take i ↔ ∃ j, j < i ∧ l[j]? = some x := by
  constructor
  · intro hx
    obtain ⟨j, hget⟩ := List.mem_iff_getElem?.mp hx
    obtain ⟨hj, rfl⟩ := List.getElem?_eq_some.mp hget
    have hji : j < i := lt_of_lt_of_le hj (by simp [List.length_take])
    refine ⟨j, hji, ?_⟩
    rw [← List.getElem?_take_of_lt hji]
    exact hget
  · rintro ⟨j, hj, hget⟩
    have : (l.take i)[j]? = some x := by rw [List.getElem?_take_of_lt hj]; exact hget
    obtain ⟨hlt, rfl⟩ := List.getElem?_eq_some.mp this
    exact List.getElem_mem hlt

/-! ## Claim C1: the automatic allocation scan -/

/-- The element of the scan list at position `i`. -/
theorem reservedIpStrs_getElem {i : Nat} (hi : i < 48) :
    reservedIpStrs[i]? = some (ipIntToStr (3232267057 - i)) := by
  unfold reservedIpStrs
  rw [List.getElem?_map]
  simp [List.getElem?_range, hi]

theorem reservedIpStrs_length : reservedIpStrs.length = 48 := by
  unfold reservedIpStrs
  simp

/-- The allocator is exactly a first-match search over the descending
scan list. -/
theorem get_next_eq_find (resList : List RView) :
    get_next_available_reserved_ip resList =
      reservedIpStrs.find? (fun s => !(resList.map (fun r => r.ip)).contains s) := by
  unfold get_next_available_reserved_ip reservedIpStrs
  rw [show ip_to_int get_reserved_range.1 = some 3232267010 from rfl,
    show ip_to_int get_reserved_range.2 = some 3232267057 from rfl]
  show (((List.range ((3232267057 : Int) - 3232267010 + 1).toNat).map
      (fun (i : Nat) => ipIntToStr ((3232267057 : Int) - (i : Int)).toNat)).find? _) = _
  rw [show ((3232267057 : Int) - 3232267010 + 1).toNat = 48 by decide]
  have hmap : (List.range 48).map
        (fun (i : Nat) => ipIntToStr ((3232267057 : Int) - (i : Int)).toNat) =
      (List.range 48).map (fun (i : Nat) => ipIntToStr (3232267057 - i)) := by
    apply List.map_congr_left
    intro i hi
    have hi48 : i < 48 := List.mem_range.mp hi
    congr 1
    omega
  rw [hmap]

/-- C1: automatic allocation scans the reserved range
`192.168.123.2`–`192.168.123.49` (ordinals `3232267010`–`3232267057`) from
its highest ordinal down to its lowest and returns the first dotted-quad
string not among the existing reservations' addresses; on an empty
reservation set it returns `192.168.123.49`, and when every address of the
range is taken it returns no address (`RangeExhausted`). -/
theorem C1_auto_allocation (resList : List RView) :
    (∀ s : String, get_next_available_reserved_ip resList = some s ↔
      ∃ n : Nat, 3232267010 ≤ n ∧ n ≤ 3232267057 ∧ s = ipIntToStr n ∧
        (¬ ∃ r ∈ resList, r.ip = s) ∧
        (∀ m : Nat, n < m → m ≤ 3232267057 → ∃ r ∈ resList, r.ip = ipIntToStr m)) ∧
    (resList = [] → get_next_available_reserved_ip resList = some ("192.168.123.49")) ∧
    ((∀ n : Nat, 3232267010 ≤ n → n ≤ 3232267057 → ∃ r ∈ resList, r.ip = ipIntToStr n) →
      get_next_available_reserved_ip resList = none) := by
  have hcont : ∀ s : String,
      ((resList.map (fun r => r.ip)).contains s = true) ↔ ∃ r ∈ resList, r.ip = s := by
    intro s
    simp
  refine ⟨?_, ?_, ?_⟩
  · intro s
    rw [get_next_eq_find, find?_eq_some_iff_split]
    constructor
    · rintro ⟨l1, l2, hsplit, hps, hl1⟩
      have hlen : l1.length < 48 := by
        have := congrArg List.length hsplit
        rw [reservedIpStrs_length] at this
        simp at this
        omega
      have hget : reservedIpStrs[l1.length]? = some s := by
        rw [hsplit, List.getElem?_append_right (le_refl _)]
        simp
      have hs : s = ipIntToStr (3232267057 - l1.length) := by
        have := reservedIpStrs_getElem hlen
        rw [hget] at this
        injection this
      refine ⟨3232267057 - l1.length, by omega, by omega, hs, ?_, ?_⟩
      · intro hused
        rw [← hcont s] at hused
        rw [hused] at hps
        exact absurd hps (by simp)
      · intro m hm1 hm2
        have hj : 3232267057 - m < l1.length := by omega
        have hx : ipIntToStr m ∈ l1 := by
          have hl1take : l1 = reservedIpStrs.take l1.length := by
            rw [hsplit, List.take_left]
          rw [hl1take, mem_take_iff_getElem]
          refine ⟨3232267057 - m, hj, ?_⟩
          rw [reservedIpStrs_getElem (by omega)]
          congr 2
          omega
        have hc : (resList.map (fun r => r.ip)).contains (ipIntToStr m) = true := by
          simpa using hl1 _ hx
        exact (hcont _).mp hc
    · rintro ⟨n, hn1, hn2, rfl, hunused, hused⟩
      have hi : 3232267057 - n < 48 := by omega
      have hget : reservedIpStrs[3232267057 - n]? = some (ipIntToStr n) := by
        rw [reservedIpStrs_getElem hi]
        congr 2
        omega
      refine ⟨reservedIpStrs.take (3232267057 - n), reservedIpStrs.drop (3232267057 - n + 1),
        list_split_at hget, ?_, ?_⟩
      · cases hcb : (resList.map (fun r => r.ip)).contains (ipIntToStr n) with
        | false => simp [hcb]
        | true => exact absurd ((hcont _).mp hcb) hunused
      · intro x hx
        obtain ⟨j, hj, hgetj⟩ := (mem_take_iff_getElem _ _ _).mp hx
        have hj48 : j < 48 := by omega
        have hxe : x = ipIntToStr (3232267057 - j) := by
          rw [reservedIpStrs_getElem hj48] at hgetj
          injection hgetj with h
          exact h.symm
        subst hxe
        simpa using hused (3232267057 - j) (by omega) (by omega)
  · rintro rfl
    rfl
  · intro hall
    rw [get_next_eq_find, List.find?_eq_none]
    intro s hs hp
    obtain ⟨i, hrange, rfl⟩ := List.mem_map.mp hs
    have hi : i < 48 := List.mem_range.mp hrange
    have hc := (hcont _).mpr (hall (3232267057 - i) (by omega) (by omega))
    rw [hc] at hp
    exact absurd hp (by simp)

/-- Witness for C1 at the empty reservation set. -/
theorem C1_auto_allocation_witness :
    get_next_available_reserved_ip [] = some ("192.168.123.49") :=
  (C1_auto_allocation []).2.1 rfl

/-! ## Claim C6: updates reject any well-formed address outside the
reserved range -/

/-- C6: for every well-formed new address outside the reserved range
`192.168.123.2`–`192.168.123.49` — in particular every pool address —
`update_reservation_ip` fails `OutOfRange` carrying the reserved bounds;
no pool-range redirection is applied (the result is this error for every
document, whatever its pools hold). -/
theorem C6_update_out_of_range (doc : Doc) (identifier new_ip : String)
    (hfmt : validate_ip_address new_ip = true)
    (hout : validate_ip_in_reserved_range new_ip = false) :
    update_reservation_ip doc identifier new_ip =
      .error (.outOfRange new_ip ("192.168.123.2") ("192.168.123.49")) := by
  unfold update_reservation_ip
  rw [hfmt, hout]
  rfl

/-- A document whose pool contains `192.168.123.150`. -/
def c6doc : Doc :=
  { subnet4 := [{ pools := some [{ pool := some ("192.168.123.100 - 192.168.123.200") }]
                  reservations := some [] }] }

/-- Witness for C6: an address inside the configured pool range. -/
theorem C6_update_out_of_range_witness :
    validate_ip_address ("192.168.123.150") = true ∧
    validate_ip_in_pool c6doc ("192.168.123.150") = true ∧
    validate_ip_in_reserved_range ("192.168.123.150") = false ∧
    update_reservation_ip c6doc ("x") ("192.168.123.150") =
      .error (.outOfRange ("192.168.123.150") ("192.168.123.2") ("192.168.123.49")) :=
  ⟨by decide, by decide, by decide,
    C6_update_out_of_range c6doc ("x") ("192.168.123.150") (by decide) (by decide)⟩

/-! ## Claim C7: duplicate MAC rejection precedes all address handling -/

/-- C7: when the document already holds a reservation whose hardware
address equals the supplied (well-formed) MAC case-insensitively,
`add_reservation` fails `DuplicateMac` whatever the supplied address is —
absent, malformed, in the pool range, or a duplicate — and no mutated
document is produced. -/
theorem C7_duplicate_mac (doc : Doc) (hw : String) (ip? hostname? : Option String)
    (hmac : validate_mac_address hw = true)
    (hdup : (get_reservations doc).any (fun r => pyLower r.hw == pyLower hw) = true) :
    add_reservation doc hw ip? hostname? = .error .duplicateMac := by
  unfold add_reservation
  rw [hmac]
  simp only [Bool.not_true, Bool.false_eq_true, if_false, hdup, if_true]

/-- A document already holding the MAC `aa:bb:cc:dd:ee:ff` (in upper
case) in its first subnet. -/
def c7doc : Doc :=
  { subnet4 := [{ pools := none
                  reservations := some
                    [{ hw := some ("AA:BB:CC:DD:EE:FF")
                       ip := some ("192.168.123.40")
                       hostname := none }] }] }

/-- Witness for C7: the same MAC in different case, supplied together with
a malformed address, still fails `DuplicateMac`. -/
theorem C7_duplicate_mac_witness :
    validate_mac_address ("aa:bb:cc:dd:ee:ff") = true ∧
    (get_reservations c7doc).any
      (fun r => pyLower r.hw == pyLower ("aa:bb:cc:dd:ee:ff")) = true ∧
    add_reservation c7doc ("aa:bb:cc:dd:ee:ff") (some ("not.an.address")) none =
      .error .duplicateMac :=
  ⟨by decide, by decide,
    C7_duplicate_mac c7doc ("aa:bb:cc:dd:ee:ff") (some ("not.an.address")) none
      (by decide) (by decide)⟩

/-! ## Claim C10: an undeterminable pool range makes the pool test accept
every well-formed address -/

/-- A well-formed address is a non-empty (truthy) string. -/
theorem validate_ip_nonempty : ∀ {ip : String}, validate_ip_address ip = true →
    strTruthy ip = true
  | ⟨[]⟩, h => absurd h (by decide)
  | ⟨_ :: _⟩, _ => rfl

/-- The three configurations in which `_get_pool_range` cannot determine
a pool range: no subnet, no pool entry, or a first pool string without
the ` - ` separator. -/
def pool_undetermined (doc : Doc) : Prop :=
  doc.subnet4 = [] ∨
  (∃ sn rest, doc.subnet4 = sn :: rest ∧ sn.pools.getD [] = []) ∨
  (∃ sn rest p ps, doc.subnet4 = sn :: rest ∧ sn.pools.getD [] = p :: ps ∧
    pySplitOnce (" - ") (p.pool.getD ("")) = none)

theorem pool_range_of_undetermined {doc : Doc} (h : pool_undetermined doc) :
    get_pool_range doc = (none, none) := by
  rcases h with h | ⟨sn, rest, hsub, hpools⟩ | ⟨sn, rest, p, ps, hsub, hpools, hsplit⟩
  · simp [get_pool_range, h]
  · simp [get_pool_range, hsub, hpools]
  · simp [get_pool_range, hsub, hpools, hsplit]

/-- C10: whenever the pool range cannot be determined, the pool-membership
test accepts every well-formed address, and `add_reservation` with any
supplied well-formed address behaves exactly as with no address at all —
the supplied address is never honored. -/
theorem C10_undetermined_pool (doc : Doc) (h : pool_undetermined doc) :
    (∀ ip : String, validate_ip_address ip = true → validate_ip_in_pool doc ip = true) ∧
    (∀ (hw ip : String) (hostname? : Option String), validate_ip_address ip = true →
      add_reservation doc hw (some ip) hostname? = add_reservation doc hw none hostname?) := by
  have hpool : ∀ ip : String, validate_ip_address ip = true →
      validate_ip_in_pool doc ip = true := by
    intro ip hip
    unfold validate_ip_in_pool
    rw [hip, pool_range_of_undetermined h]
    rfl
  refine ⟨hpool, ?_⟩
  intro hw ip hostname? hip
  have hres : resolve_ip (get_reservations doc) doc (some ip) =
      resolve_ip (get_reservations doc) doc none := by
    simp only [resolve_ip, validate_ip_nonempty hip, hip, hpool ip hip, Bool.not_true,
      Bool.false_eq_true, if_false, if_true]
  simp only [add_reservation]
  rw [hres]

/-- A document with a subnet but no pools. -/
def c10doc : Doc :=
  { subnet4 := [{ pools := none, reservations := some [] }] }

/-- Witness for C10: with no pools configured, a supplied address inside
the reserved range is still replaced by the auto-allocated top address. -/
theorem C10_undetermined_pool_witness :
    pool_undetermined c10doc ∧
    validate_ip_in_pool c10doc ("192.168.123.10") = true ∧
    add_reservation c10doc ("aa:bb:cc:dd:ee:ff") (some ("192.168.123.10")) none =
      add_reservation c10doc ("aa:bb:cc:dd:ee:ff") none none := by
  have h : pool_undetermined c10doc := Or.inr (Or.inl ⟨_, _, rfl, rfl⟩)
  exact ⟨h, (C10_undetermined_pool c10doc h).1 ("192.168.123.10") (by decide),
    (C10_undetermined_pool c10doc h).2 ("aa:bb:cc:dd:ee:ff") ("192.168.123.10") none
      (by decide)⟩

/-! ## Claim C8: address validation versus the plain dotted-quad shape -/

/-- C8 counterexample: the code accepts `1.2.3.+4` because Python's
`int(...)` tolerates a sign, though the string is not four plain decimal
components; the claimed iff fails. -/
theorem C8_counterexample :
    validate_ip_address ("1.2.3.+4") = true ∧ isDottedQuadSpec ("1.2.3.+4") = false := by
  constructor
  · decide
  · decide

/-- C8 (amended): every string of four dot-separated plain decimal
components with values in `[0, 255]` is accepted; and acceptance holds iff
the string splits at dots into exactly four components, each accepted by
Python integer conversion (which also tolerates surrounding whitespace, an
optional sign, and underscore digit grouping) with value in `[0, 255]`. -/
theorem C8_parse_address (s : String) :
    (isDottedQuadSpec s = true → validate_ip_address s = true) ∧
    (validate_ip_address s = true ↔
      ((pySplit '.' s).length = 4 ∧
        ∀ p ∈ pySplit '.' s, ∃ n : Int, pyInt p = some n ∧ 0 ≤ n ∧ n ≤ 255)) := by
  have hiff : validate_ip_address s = true ↔
      ((pySplit '.' s).length = 4 ∧
        ∀ p ∈ pySplit '.' s, ∃ n : Int, pyInt p = some n ∧ 0 ≤ n ∧ n ≤ 255) := by
    unfold validate_ip_address
    by_cases hlen : (pySplit '.' s).length = 4
    case neg =>
      rw [if_neg hlen]
      simp only [Bool.false_eq_true, false_iff, not_and]
      intro hc
      exact absurd hc hlen
    case pos =>
      rw [if_pos hlen]
      rw [List.all_eq_true]
      constructor
      · intro hall
        refine ⟨hlen, ?_⟩
        intro p hp
        have := hall p hp
        cases hint : pyInt p with
        | none => rw [hint] at this; simp at this
        | some n =>
          rw [hint] at this
          simp only [Bool.and_eq_true_iff, decide_eq_true_eq] at this
          exact ⟨n, rfl, this.1, this.2⟩
      · rintro ⟨-, hparts⟩ p hp
        obtain ⟨n, hn, h0, h255⟩ := hparts p hp
        rw [hn]
        simp [h0, h255]
  refine ⟨?_, hiff⟩
  intro hspec
  unfold isDottedQuadSpec at hspec
  simp only [Bool.and_eq_true_iff, decide_eq_true_eq, List.all_eq_true] at hspec
  obtain ⟨hlen, hparts⟩ := hspec
  rw [hiff]
  refine ⟨hlen, ?_⟩
  intro p hp
  have hpspec := hparts p hp
  simp only [Bool.and_eq_true_iff, List.all_eq_true, Bool.not_eq_true',
    decide_eq_true_eq] at hpspec
  obtain ⟨⟨hne, hdigits⟩, hbound⟩ := hpspec
  have hnenil : p.data ≠ [] := by
    intro hnil
    rw [hnil] at hne
    simp at hne
  have hint : pyInt p = some (decListVal p.data : Int) := pyInt_digits hnenil hdigits
  refine ⟨(decListVal p.data : Int), hint, by positivity, by exact_mod_cast hbound⟩

/-- Witness for C8 on a plain dotted quad. -/
theorem C8_parse_address_witness :
    isDottedQuadSpec ("192.168.123.49") = true ∧
    validate_ip_address ("192.168.123.49") = true :=
  ⟨by decide, (C8_parse_address ("192.168.123.49")).1 (by decide)⟩

/-! ## Helper lemmas: every address the engine stores is in the reserved
range -/

/-- Every address the allocator can return lies in the reserved range. -/
theorem next_ip_in_reserved {resList : List RView} {s : String}
    (h : get_next_available_reserved_ip resList = some s) :
    validate_ip_in_reserved_range s = true := by
  rw [get_next_eq_find] at h
  have hmem : s ∈ reservedIpStrs := List.mem_of_find?_eq_some h
  have hall : reservedIpStrs.all (fun t => validate_ip_in_reserved_range t) = true := by decide
  exact List.all_eq_true.mp hall s hmem

/-- The auto-allocation arm of the address policy only succeeds with a
reserved-range address. -/
theorem auto_arm_reserved {existing : List RView} {s : String}
    (h : (match get_next_available_reserved_ip existing with
          | some ip => (Except.ok ip : Except DhcpError String)
          | none => .error .rangeExhausted) = .ok s) :
    validate_ip_in_reserved_range s = true := by
  cases hnext : get_next_available_reserved_ip existing with
  | none =>
    rw [hnext] at h
    simp at h
  | some t =>
    rw [hnext] at h
    have : t = s := by injection h
    subst this
    exact next_ip_in_reserved hnext

/-- The resolved address of `add_reservation` is always in the reserved
range. -/
theorem resolve_ok_reserved {existing : List RView} {doc : Doc} {ip? : Option String}
    {s : String} (h : resolve_ip existing doc ip? = .ok s) :
    validate_ip_in_reserved_range s = true := by
  cases ip? with
  | none =>
    simp only [resolve_ip] at h
    exact auto_arm_reserved h
  | some t =>
    simp only [resolve_ip] at h
    cases ht : strTruthy t with
    | false =>
      rw [ht] at h
      simp only [Bool.not_false, if_true] at h
      exact auto_arm_reserved h
    | true =>
      rw [ht] at h
      simp only [Bool.not_true, Bool.false_eq_true, if_false] at h
      cases hv : validate_ip_address t with
      | false =>
        rw [hv] at h
        simp at h
      | true =>
        rw [hv] at h
        simp only [Bool.not_true, Bool.false_eq_true, if_false] at h
        cases hp : validate_ip_in_pool doc t with
        | true =>
          rw [hp] at h
          simp only [if_true] at h
          exact auto_arm_reserved h
        | false =>
          rw [hp] at h
          simp only [Bool.false_eq_true, if_false] at h
          cases hr : validate_ip_in_reserved_range t with
          | false =>
            rw [hr] at h
            simp at h
          | true =>
            rw [hr] at h
            simp only [if_true, Except.ok.injEq] at h
            subst h
            exact hr

/-- The shape of every successful `add_reservation`: the first subnet
exists, the address policy resolved an address, and the new entry (with
lowercased MAC and resolved address) is appended to the first subnet's
reservation list. -/
theorem add_reservation_ok_shape {doc : Doc} {hw : String} {ip? hostname? : Option String}
    {doc2 : Doc} {r : Reservation}
    (h : add_reservation doc hw ip? hostname? = .ok (doc2, r)) :
    ∃ (ip : String) (sn : Subnet) (rest : List Subnet),
      doc.subnet4 = sn :: rest ∧
      resolve_ip (get_reservations doc) doc ip? = .ok ip ∧
      r = { hw := some (pyLower hw), ip := some ip, hostname := hostname_field hostname? } ∧
      doc2 = { doc with subnet4 :=
        { sn with reservations := some ((sn.reservations.getD []) ++ [r]) } :: rest } := by
  simp only [add_reservation] at h
  cases hmac : validate_mac_address hw with
  | false => rw [hmac] at h; simp at h
  | true =>
    rw [hmac] at h
    simp only [Bool.not_true, Bool.false_eq_true, if_false] at h
    cases hdup : (get_reservations doc).any (fun x => pyLower x.hw == pyLower hw) with
    | true => rw [hdup] at h; simp at h
    | false =>
      rw [hdup] at h
      simp only [Bool.false_eq_true, if_false] at h
      cases hres : resolve_ip (get_reservations doc) doc ip? with
      | error e => rw [hres] at h; simp at h
      | ok ip =>
        rw [hres] at h
        simp only at h
        cases hdup2 : (get_reservations doc).any (fun x => x.ip == ip) with
        | true => rw [hdup2] at h; simp at h
        | false =>
          rw [hdup2] at h
          simp only [Bool.false_eq_true, if_false] at h
          cases hsub : doc.subnet4 with
          | nil => rw [hsub] at h; simp at h
          | cons sn rest =>
            rw [hsub] at h
            simp only at h
            cases hfind : (sn.reservations.getD []).find? (fun x =>
                pyLower (x.hw.getD ("")) == pyLower hw || x.ip.getD ("") == ip) with
            | some r0 =>
              simp only [hfind] at h
              split at h <;> simp at h
            | none =>
              simp only [hfind] at h
              simp only [Except.ok.injEq, Prod.mk.injEq] at h
              obtain ⟨hdoc, hr⟩ := h
              refine ⟨ip, sn, rest, rfl, rfl, hr.symm, ?_⟩
              rw [← hdoc, ← hr]

/-! ## Claim C9: MAC validation versus the plain six-byte shape -/

/-- C9 counterexample: the code accepts `fff:00:00:00:00:00` although
`fff` is not a byte — `int(..., 16)` has no range check; the claimed iff
fails. -/
theorem C9_counterexample :
    validate_mac_address ("fff:00:00:00:00:00") = true ∧
    isMacSpec ("fff:00:00:00:00:00") = false := by
  constructor
  · decide
  · decide

/-- C9 (amended): every string of six plain hexadecimal byte components
delimited by colons or hyphens is accepted; acceptance holds iff the
string splits at colons/hyphens into exactly six components each accepted
by Python base-16 integer conversion (which also tolerates a sign,
whitespace, a `0x` prefix and underscore grouping, and imposes no byte
bound); and every accepted MAC is stored lowercased. -/
theorem C9_parse_mac (s : String) :
    (isMacSpec s = true → validate_mac_address s = true) ∧
    (validate_mac_address s = true ↔
      ((splitMacParts s).length = 6 ∧
        ∀ p ∈ splitMacParts s, (pyIntHex p).isSome = true)) ∧
    (∀ (doc : Doc) (ip? hostname? : Option String) (doc2 : Doc) (r : Reservation),
      add_reservation doc s ip? hostname? = .ok (doc2, r) →
      r.hw = some (pyLower s)) := by
  have hsplit : pySplit '-' (pyReplaceChar ':' '-' s) = splitMacParts s := rfl
  have hiff : validate_mac_address s = true ↔
      ((splitMacParts s).length = 6 ∧
        ∀ p ∈ splitMacParts s, (pyIntHex p).isSome = true) := by
    unfold validate_mac_address
    rw [hsplit]
    simp only [Bool.and_eq_true_iff, decide_eq_true_eq, List.all_eq_true]
  refine ⟨?_, hiff, ?_⟩
  · intro hspec
    unfold isMacSpec at hspec
    simp only [Bool.and_eq_true_iff, decide_eq_true_eq, List.all_eq_true,
      Bool.not_eq_true'] at hspec
    obtain ⟨hlen, hparts⟩ := hspec
    rw [hiff]
    refine ⟨hlen, ?_⟩
    intro p hp
    obtain ⟨⟨hne, hdigits⟩, -⟩ := hparts p hp
    have hnenil : p.data ≠ [] := by
      intro hnil
      rw [hnil] at hne
      simp at hne
    rw [pyIntHex_digits hnenil hdigits]
    rfl
  · intro doc ip? hostname? doc2 r h
    obtain ⟨ip, sn, rest, -, -, hr, -⟩ := add_reservation_ok_shape h
    rw [hr]

/-- Witness for C9 on a plain MAC, mixed delimiters included. -/
theorem C9_parse_mac_witness :
    isMacSpec ("aa:bb-cc:dd:ee:0f") = true ∧
    validate_mac_address ("aa:bb-cc:dd:ee:0f") = true :=
  ⟨by decide, (C9_parse_mac ("aa:bb-cc:dd:ee:0f")).1 (by decide)⟩

/-! ## Claim C2: successful additions always store a reserved-range
address -/

/-- A document whose pool overlaps the reserved range. -/
def c2doc : Doc :=
  { subnet4 := [{ pools := some [{ pool := some ("192.168.123.0 - 192.168.123.100") }]
                  reservations := some [] }] }

/-- C2 counterexample: with a pool overlapping the reserved range, the
caller-supplied pool address `192.168.123.49` is re-routed to
auto-allocation, which returns that very address — so the supplied pool
address IS stored, against the claim's "never stored". -/
theorem C2_counterexample :
    validate_ip_address ("192.168.123.49") = true ∧
    validate_ip_in_pool c2doc ("192.168.123.49") = true ∧
    add_reservation c2doc ("aa:bb:cc:dd:ee:ff") (some ("192.168.123.49")) none =
      .ok ({ subnet4 := [{ pools := some [{ pool := some ("192.168.123.0 - 192.168.123.100") }]
                           reservations := some [{ hw := some ("aa:bb:cc:dd:ee:ff")
                                                   ip := some ("192.168.123.49")
                                                   hostname := none }] }] },
           { hw := some ("aa:bb:cc:dd:ee:ff"), ip := some ("192.168.123.49"),
             hostname := none }) := by
  refine ⟨by decide, by decide, by rfl⟩

/-- C2 (amended): every successful `add_reservation` stores an address in
the reserved range, appended to the first subnet; a supplied well-formed
address inside the pool range triggers auto-allocation (which may
coincidentally return the supplied address when the pool overlaps the
reserved range), failing `RangeExhausted` when no reserved address is
free. -/
theorem C2_stored_address_reserved :
    (∀ (doc : Doc) (hw : String) (ip? hostname? : Option String) (doc2 : Doc)
        (r : Reservation),
      add_reservation doc hw ip? hostname? = .ok (doc2, r) →
        (∃ s, r.ip = some s ∧ validate_ip_in_reserved_range s = true) ∧
        (∃ sn rest, doc.subnet4 = sn :: rest ∧
          doc2 = { doc with subnet4 :=
            { sn with reservations := some ((sn.reservations.getD []) ++ [r]) } :: rest })) ∧
    (∀ (doc : Doc) (hw s : String) (hostname? : Option String),
      validate_mac_address hw = true →
      (get_reservations doc).any (fun x => pyLower x.hw == pyLower hw) = false →
      validate_ip_address s = true →
      validate_ip_in_pool doc s = true →
      get_next_available_reserved_ip (get_reservations doc) = none →
      add_reservation doc hw (some s) hostname? = .error .rangeExhausted) := by
  constructor
  · intro doc hw ip? hostname? doc2 r h
    obtain ⟨ip, sn, rest, hsub, hres, hr, hdoc2⟩ := add_reservation_ok_shape h
    refine ⟨⟨ip, ?_, resolve_ok_reserved hres⟩, ⟨sn, rest, hsub, hdoc2⟩⟩
    rw [hr]
  · intro doc hw s hostname? hmac hdup hv hp hnone
    have hres : resolve_ip (get_reservations doc) doc (some s) = .error .rangeExhausted := by
      simp only [resolve_ip, validate_ip_nonempty hv, hv, hp, hnone, Bool.not_true,
        Bool.false_eq_true, if_false, if_true]
    simp only [add_reservation, hmac, hdup, hres, Bool.not_true, Bool.false_eq_true, if_false]

/-- A document with one subnet carrying no reservations key. -/
def c2wdoc : Doc :=
  { subnet4 := [{ pools := none, reservations := none }] }

/-- The entry a first addition to `c2wdoc` creates. -/
def c2wres : Reservation :=
  { hw := some ("aa:bb:cc:dd:ee:ff"), ip := some ("192.168.123.49"), hostname := none }

/-- The document after that addition. -/
def c2wdoc2 : Doc :=
  { subnet4 := [{ pools := none, reservations := some [c2wres] }] }

/-- Witness for C2 on a concrete successful addition. -/
theorem C2_stored_address_reserved_witness :
    (∃ s, c2wres.ip = some s ∧ validate_ip_in_reserved_range s = true) ∧
    (∃ sn rest, c2wdoc.subnet4 = sn :: rest ∧
      c2wdoc2 = { c2wdoc with subnet4 :=
        { sn with reservations := some ((sn.reservations.getD []) ++ [c2wres]) } :: rest }) :=
  C2_stored_address_reserved.1 c2wdoc ("aa:bb:cc:dd:ee:ff") none none c2wdoc2 c2wres
    (by rfl)

/-! ## Claim C4: removal semantics -/

theorem length_filter_split {α : Type _} (p : α → Bool) :
    ∀ (l : List α), (l.filter p).length + (l.filter (fun x => !p x)).length = l.length
  | [] => rfl
  | x :: rest => by
    have ih := length_filter_split p rest
    cases hx : p x <;> simp [List.filter_cons, hx] <;> omega

theorem remove_aux_cons_none (identifier : String) (sn : Subnet) (rest : List Subnet)
    (h : sn.reservations = none) :
    remove_aux identifier (sn :: rest) =
      (sn :: (remove_aux identifier rest).1, (remove_aux identifier rest).2) := by
  rw [remove_aux.eq_def]
  simp only [h]

theorem remove_aux_cons_some (identifier : String) (sn : Subnet) (rest : List Subnet)
    (rs : List Reservation) (h : sn.reservations = some rs) :
    remove_aux identifier (sn :: rest) =
      (if (rs.filter (fun r => !matches_identifier identifier r)).length < rs.length
       then ({ sn with reservations := some (rs.filter (fun r => !matches_identifier identifier r)) } :: rest, true)
       else ({ sn with reservations := some (rs.filter (fun r => !matches_identifier identifier r)) } :: (remove_aux identifier rest).1, (remove_aux identifier rest).2)) := by
  rw [remove_aux.eq_def]
  simp only [h]

/-- Structure eta for a subnet whose reservation list is known. -/
theorem subnet_eta {sn : Subnet} {rs : List Reservation} (h : sn.reservations = some rs) :
    { sn with reservations := some rs } = sn := by
  cases sn
  simp only at h
  rw [h]

/-- Full behavior of the removal loop: the returned flag, the no-match
identity, and the decomposition at the first matching subnet. -/
theorem remove_aux_spec (identifier : String) : ∀ (sns : List Subnet),
    ((remove_aux identifier sns).2 = true ↔
      ∃ sn ∈ sns, ∃ rs, sn.reservations = some rs ∧
        rs.any (matches_identifier identifier) = true) ∧
    ((remove_aux identifier sns).2 = false → (remove_aux identifier sns).1 = sns) ∧
    ((remove_aux identifier sns).2 = true → ∃ pre sn rs post,
      sns = pre ++ sn :: post ∧ sn.reservations = some rs ∧
      rs.any (matches_identifier identifier) = true ∧
      (∀ sn0 ∈ pre, ∀ rs0, sn0.reservations = some rs0 →
        rs0.any (matches_identifier identifier) = false) ∧
      (remove_aux identifier sns).1 =
        pre ++ { sn with reservations := some (rs.filter (fun x => !matches_identifier identifier x)) } :: post)
  | [] => by
    refine ⟨by simp [remove_aux], fun _ => rfl, fun h => absurd h (by simp [remove_aux])⟩
  | sn :: rest => by
    have ih := remove_aux_spec identifier rest
    cases hres : sn.reservations with
    | none =>
      rw [remove_aux_cons_none identifier sn rest hres]
      refine ⟨?_, ?_, ?_⟩
      · simp only
        rw [ih.1]
        constructor
        · rintro ⟨sn1, hmem, rs, h1, h2⟩
          exact ⟨sn1, by simp [hmem], rs, h1, h2⟩
        · rintro ⟨sn1, hmem, rs, h1, h2⟩
          rcases List.mem_cons.mp hmem with rfl | hmem
          · rw [hres] at h1
            exact absurd h1 (by simp)
          · exact ⟨sn1, hmem, rs, h1, h2⟩
      · intro hfalse
        simp only at hfalse ⊢
        rw [ih.2.1 hfalse]
      · intro htrue
        simp only at htrue
        obtain ⟨pre, sn1, rs, post, hsplit, h1, h2, hpre, hresult⟩ := ih.2.2 htrue
        refine ⟨sn :: pre, sn1, rs, post, by simp [hsplit], h1, h2, ?_, by simp [hresult]⟩
        intro sn0 hmem rs0 hrs0
        rcases List.mem_cons.mp hmem with rfl | hmem
        · rw [hres] at hrs0
          exact absurd hrs0 (by simp)
        · exact hpre sn0 hmem rs0 hrs0
    | some rs =>
      rw [remove_aux_cons_some identifier sn rest rs hres]
      by_cases hlt : (rs.filter (fun r => !matches_identifier identifier r)).length < rs.length
      · rw [if_pos hlt]
        have hany : rs.any (matches_identifier identifier) = true := by
          rw [List.length_filter_lt_length_iff_exists] at hlt
          obtain ⟨a, hmem, ha⟩ := hlt
          rw [List.any_eq_true]
          refine ⟨a, hmem, ?_⟩
          simpa using ha
        refine ⟨?_, ?_, ?_⟩
        · simp only
          constructor
          · intro _
            exact ⟨sn, by simp, rs, hres, hany⟩
          · intro _
            trivial
        · intro hfalse
          simp at hfalse
        · intro _
          exact ⟨[], sn, rs, rest, rfl, hres, hany, by simp, rfl⟩
      · rw [if_neg hlt]
        have hfeq : rs.filter (fun r => !matches_identifier identifier r) = rs := by
          rw [List.filter_eq_self]
          intro a hmem
          by_contra hcon
          exact hlt (List.length_filter_lt_length_iff_exists.mpr ⟨a, hmem, hcon⟩)
        have hany : rs.any (matches_identifier identifier) = false := by
          rw [List.filter_eq_self] at hfeq
          rw [← Bool.not_eq_true, List.any_eq_true]
          rintro ⟨a, hmem, ha⟩
          have := hfeq a hmem
          rw [ha] at this
          exact absurd this (by simp)
        have hsn : ({ sn with reservations := some (rs.filter (fun r => !matches_identifier identifier r)) }) = sn := by
          rw [hfeq]
          exact subnet_eta hres
        rw [hsn]
        refine ⟨?_, ?_, ?_⟩
        · simp only
          rw [ih.1]
          constructor
          · rintro ⟨sn1, hmem, rs1, h1, h2⟩
            exact ⟨sn1, by simp [hmem], rs1, h1, h2⟩
          · rintro ⟨sn1, hmem, rs1, h1, h2⟩
            rcases List.mem_cons.mp hmem with rfl | hmem
            · rw [hres] at h1
              have : rs = rs1 := by injection h1
              subst this
              rw [hany] at h2
              exact absurd h2 (by simp)
            · exact ⟨sn1, hmem, rs1, h1, h2⟩
        · intro hfalse
          simp only at hfalse ⊢
          rw [ih.2.1 hfalse]
        · intro htrue
          simp only at htrue
          obtain ⟨pre, sn1, rs1, post, hsplit, h1, h2, hpre, hresult⟩ := ih.2.2 htrue
          refine ⟨sn :: pre, sn1, rs1, post, by simp [hsplit], h1, h2, ?_, by simp [hresult]⟩
          intro sn0 hmem rs0 hrs0
          rcases List.mem_cons.mp hmem with rfl | hmem
          · rw [hres] at hrs0
            have : rs = rs0 := by injection hrs0
            subst this
            exact hany
          · exact hpre sn0 hmem rs0 hrs0

/-- Total number of stored reservations of a document. -/
def doc_res_total (doc : Doc) : Nat :=
  (doc.subnet4.map (fun sn => (sn.reservations.getD []).length)).sum

/-- Number of stored reservations matching an identifier. -/
def doc_match_count (identifier : String) (doc : Doc) : Nat :=
  (doc.subnet4.map (fun sn =>
    ((sn.reservations.getD []).filter (matches_identifier identifier)).length)).sum

theorem filter_eq_nil_of_any_false {α : Type _} {p : α → Bool} {l : List α}
    (h : l.any p = false) : l.filter p = [] := by
  rw [List.filter_eq_nil_iff]
  intro a hmem hpa
  have : l.any p = true := List.any_eq_true.mpr ⟨a, hmem, hpa⟩
  rw [h] at this
  exact absurd this (by simp)

theorem filter_pos_of_any {α : Type _} {p : α → Bool} {l : List α}
    (h : l.any p = true) : 0 < (l.filter p).length := by
  obtain ⟨a, hmem, hpa⟩ := List.any_eq_true.mp h
  exact List.length_pos.mpr (List.ne_nil_of_mem (List.mem_filter.mpr ⟨hmem, hpa⟩))

/-- C4 (amended): the identifier matches case-insensitively on the stored
hardware address or exactly on the stored address; removal drops ALL
matching entries of the first subnet (among those carrying a reservations
key) that contains a match, leaves every other subnet untouched, returns
whether a match existed, and — when exactly one stored entry matches, as
with a unique reservation addressed by its MAC or by its address —
removes exactly one entry. -/
theorem C4_remove_matching (doc : Doc) (identifier : String) :
    ((remove_reservation doc identifier).2 = true ↔
      ∃ sn ∈ doc.subnet4, ∃ rs, sn.reservations = some rs ∧
        rs.any (matches_identifier identifier) = true) ∧
    ((remove_reservation doc identifier).2 = false →
      (remove_reservation doc identifier).1 = doc) ∧
    ((remove_reservation doc identifier).2 = true → ∃ pre sn rs post,
      doc.subnet4 = pre ++ sn :: post ∧ sn.reservations = some rs ∧
      rs.any (matches_identifier identifier) = true ∧
      (∀ sn0 ∈ pre, ∀ rs0, sn0.reservations = some rs0 →
        rs0.any (matches_identifier identifier) = false) ∧
      (remove_reservation doc identifier).1.subnet4 =
        pre ++ { sn with reservations := some (rs.filter (fun x => !matches_identifier identifier x)) } :: post) ∧
    (doc_match_count identifier doc = 1 →
      doc_res_total (remove_reservation doc identifier).1 = doc_res_total doc - 1) := by
  have hfst : (remove_reservation doc identifier).1.subnet4 =
      (remove_aux identifier doc.subnet4).1 := rfl
  have hsnd : (remove_reservation doc identifier).2 =
      (remove_aux identifier doc.subnet4).2 := rfl
  have spec := remove_aux_spec identifier doc.subnet4
  refine ⟨by rw [hsnd]; exact spec.1, ?_, ?_, ?_⟩
  · intro hfalse
    rw [hsnd] at hfalse
    have h1 := spec.2.1 hfalse
    show ({ doc with subnet4 := (remove_aux identifier doc.subnet4).1 } : Doc) = doc
    rw [h1]
  · intro htrue
    rw [hsnd] at htrue
    obtain ⟨pre, sn, rs, post, hsplit, h1, h2, hpre, hresult⟩ := spec.2.2 htrue
    exact ⟨pre, sn, rs, post, hsplit, h1, h2, hpre, by rw [hfst]; exact hresult⟩
  · intro hcount
    have hflag : (remove_aux identifier doc.subnet4).2 = true := by
      cases hf : (remove_aux identifier doc.subnet4).2 with
      | true => rfl
      | false =>
        exfalso
        have hno : ∀ sn ∈ doc.subnet4,
            ((sn.reservations.getD []).filter (matches_identifier identifier)).length = 0 := by
          intro sn hmem
          cases hres : sn.reservations with
          | none => simp
          | some rs =>
            cases hany : rs.any (matches_identifier identifier) with
            | true =>
              have := spec.1.mpr ⟨sn, hmem, rs, hres, hany⟩
              rw [hf] at this
              exact absurd this (by simp)
            | false =>
              simp [hres, filter_eq_nil_of_any_false hany]
        have hzero : doc_match_count identifier doc = 0 := by
          unfold doc_match_count
          apply List.sum_eq_zero
          intro x hx
          obtain ⟨sn, hmem, rfl⟩ := List.mem_map.mp hx
          exact hno sn hmem
        omega
    obtain ⟨pre, sn, rs, post, hsplit, h1, h2, hpre, hresult⟩ := spec.2.2 hflag
    have hpre0 : ∀ sn0 ∈ pre,
        ((sn0.reservations.getD []).filter (matches_identifier identifier)).length = 0 := by
      intro sn0 hmem
      cases hres0 : sn0.reservations with
      | none => simp
      | some rs0 =>
        simp [hres0, filter_eq_nil_of_any_false (hpre sn0 hmem rs0 hres0)]
    have hpresum : (pre.map (fun sn0 =>
        ((sn0.reservations.getD []).filter (matches_identifier identifier)).length)).sum = 0 := by
      apply List.sum_eq_zero
      intro x hx
      obtain ⟨sn0, hmem, rfl⟩ := List.mem_map.mp hx
      exact hpre0 sn0 hmem
    have hcount' : (rs.filter (matches_identifier identifier)).length +
        (post.map (fun sn0 =>
          ((sn0.reservations.getD []).filter (matches_identifier identifier)).length)).sum = 1 := by
      unfold doc_match_count at hcount
      rw [hsplit] at hcount
      simp only [List.map_append, List.map_cons, List.sum_append, List.sum_cons, h1,
        Option.getD_some] at hcount
      omega
    have hge1 := filter_pos_of_any h2
    have hsplitlen := length_filter_split (matches_identifier identifier) rs
    unfold doc_res_total
    rw [hfst, hresult, hsplit]
    simp only [List.map_append, List.map_cons, List.sum_append, List.sum_cons, h1,
      Option.getD_some]
    omega

/-- A document whose only subnet holds two reservations sharing the same
hardware address. -/
def c4doc : Doc :=
  { subnet4 := [{ pools := none
                  reservations := some
                    [{ hw := some ("aa:aa:aa:aa:aa:aa"), ip := some ("192.168.123.49"),
                       hostname := none },
                     { hw := some ("aa:aa:aa:aa:aa:aa"), ip := some ("192.168.123.48"),
                       hostname := none }] }] }

/-- C4 counterexample: removing by the shared MAC removes BOTH entries of
the subnet (the loop filters every match), not only the first one as the
claim states — afterwards the subnet holds zero reservations instead of
one. -/
theorem C4_counterexample :
    doc_res_total c4doc = 2 ∧
    (remove_reservation c4doc ("aa:aa:aa:aa:aa:aa")).2 = true ∧
    (remove_reservation c4doc ("aa:aa:aa:aa:aa:aa")).1 =
      { subnet4 := [{ pools := none, reservations := some [] }] } ∧
    doc_res_total (remove_reservation c4doc ("aa:aa:aa:aa:aa:aa")).1 = 0 := by
  refine ⟨by decide, by decide, by decide, by decide⟩

/-- A document with a single uniquely-keyed reservation. -/
def c4wdoc : Doc :=
  { subnet4 := [{ pools := none
                  reservations := some
                    [{ hw := some ("aa:bb:cc:dd:ee:ff"), ip := some ("192.168.123.40"),
                       hostname := none }] }] }

/-- Witness for C4: removing the unique reservation by its address
removes exactly one entry. -/
theorem C4_remove_matching_witness :
    doc_match_count ("192.168.123.40") c4wdoc = 1 ∧
    doc_res_total (remove_reservation c4wdoc ("192.168.123.40")).1 =
      doc_res_total c4wdoc - 1 :=
  ⟨by decide, (C4_remove_matching c4wdoc ("192.168.123.40")).2.2.2 (by decide)⟩

/-! ## Claim C5: configuration loading -/

theorem findCharAux_spec (c : Char) : ∀ (cs : List Char) (i : Nat),
    (findCharAux c cs (i : Int) = -1 ∧ ∀ j : Nat, cs[j]? ≠ some c) ∨
    (∃ k : Nat, cs[k]? = some c ∧ (∀ j < k, cs[j]? ≠ some c) ∧
      findCharAux c cs (i : Int) = ((i + k : Nat) : Int))
  | [], i => by
    left
    exact ⟨rfl, by simp⟩
  | x :: rest, i => by
    by_cases hx : x = c
    · right
      refine ⟨0, by simp [hx], by omega, ?_⟩
      simp [findCharAux, hx]
    · have step : findCharAux c (x :: rest) (i : Int) = findCharAux c rest ((i : Int) + 1) := by
        simp [findCharAux, hx]
      have hcast : ((i : Int) + 1) = ((i + 1 : Nat) : Int) := by push_cast; ring
      rcases findCharAux_spec c rest (i + 1) with ⟨h1, h2⟩ | ⟨k, hk, hbefore, hval⟩
      · left
        refine ⟨by rw [step, hcast]; exact h1, ?_⟩
        intro j
        cases j with
        | zero => simp [hx]
        | succ j => simpa using h2 j
      · right
        refine ⟨k + 1, by simpa using hk, ?_, ?_⟩
        · intro j hj
          cases j with
          | zero => simp [hx]
          | succ j => simpa using hbefore j (by omega)
        · rw [step, hcast, hval]
          congr 1
          omega

theorem rfindCharAux_spec (c : Char) : ∀ (cs : List Char) (i : Nat) (best : Int),
    (rfindCharAux c cs (i : Int) best = best ∧ ∀ j : Nat, cs[j]? ≠ some c) ∨
    (∃ k : Nat, cs[k]? = some c ∧ (∀ j : Nat, k < j → cs[j]? ≠ some c) ∧
      rfindCharAux c cs (i : Int) best = ((i + k : Nat) : Int))
  | [], i, best => by
    left
    exact ⟨rfl, by simp⟩
  | x :: rest, i, best => by
    have hcast : ((i : Int) + 1) = ((i + 1 : Nat) : Int) := by push_cast; ring
    have step : rfindCharAux c (x :: rest) (i : Int) best =
        rfindCharAux c rest ((i + 1 : Nat) : Int) (if x = c then (i : Int) else best) := by
      rw [rfindCharAux, hcast]
    rcases rfindCharAux_spec c rest (i + 1) (if x = c then (i : Int) else best) with
      ⟨h1, h2⟩ | ⟨k, hk, hafter, hval⟩
    · by_cases hx : x = c
      · right
        refine ⟨0, by simp [hx], ?_, ?_⟩
        · intro j hj
          match j, hj with
          | j + 1, _ => simpa using h2 j
        · rw [step, h1, if_pos hx]
          simp
      · left
        refine ⟨by rw [step, h1, if_neg hx], ?_⟩
        intro j
        cases j with
        | zero => simp [hx]
        | succ j => simpa using h2 j
    · right
      refine ⟨k + 1, by simpa using hk, ?_, ?_⟩
      · intro j hj
        match j, hj with
        | j + 1, hj => simpa using hafter j (by omega)
      · rw [step, hval]
        congr 1
        omega

/-- The only error `extract_json` produces. -/
theorem extract_json_error {raw : String} {e : String} (h : extract_json raw = .error e) :
    e = "No valid JSON object found in config file" := by
  simp only [extract_json] at h
  split at h
  · injection h with h1
    exact h1.symm
  · exact absurd h (by simp)

/-- The successful extraction: its substring runs from the first opening
brace to the last closing brace. -/
theorem extract_json_ok_spec {raw body : String} (h : extract_json raw = .ok body) :
    ∃ f l : Nat, f < l ∧ raw.data[f]? = some '{' ∧ (∀ j < f, raw.data[j]? ≠ some '{') ∧
      raw.data[l]? = some '}' ∧ (∀ j : Nat, l < j → raw.data[j]? ≠ some '}') ∧
      body.data = (raw.data.drop f).take (l + 1 - f) := by
  have hfb : strFindChar '{' raw = findCharAux '{' raw.data ((0 : Nat) : Int) := rfl
  have hlb : strRFindChar '}' raw = rfindCharAux '}' raw.data ((0 : Nat) : Int) (-1) := rfl
  simp only [extract_json] at h
  rcases findCharAux_spec '{' raw.data 0 with ⟨hf1, hf2⟩ | ⟨f, hf, hfbefore, hfval⟩
  · rw [hfb, hf1] at h
    simp at h
  · rcases rfindCharAux_spec '}' raw.data 0 (-1) with ⟨hl1, hl2⟩ | ⟨l, hl, hlafter, hlval⟩
    · rw [hlb, hl1] at h
      simp at h
    · simp only [Nat.zero_add] at hfval hlval
      rw [hfb, hlb, hfval, hlval] at h
      by_cases hfl : f < l
      case neg =>
        have hcond : (((f : Nat) : Int) == -1 || ((l : Nat) : Int) == -1 ||
            decide (((l : Nat) : Int) ≤ ((f : Nat) : Int))) = true := by
          simp only [Bool.or_eq_true_iff, decide_eq_true_eq]
          right
          omega
        rw [hcond] at h
        simp at h
      case pos =>
        have hcond : (((f : Nat) : Int) == -1 || ((l : Nat) : Int) == -1 ||
            decide (((l : Nat) : Int) ≤ ((f : Nat) : Int))) = false := by
          simp only [Bool.or_eq_false_iff, decide_eq_false_iff_not, beq_eq_false_iff_ne, ne_eq]
          refine ⟨⟨?_, ?_⟩, ?_⟩ <;> omega
        rw [hcond] at h
        simp only [Bool.false_eq_true, if_false] at h
        injection h with hbe
        refine ⟨f, l, hfl, hf, hfbefore, hl, hlafter, ?_⟩
        rw [← hbe]
        simp

/-- Extraction succeeds exactly when some closing brace occurs after some
opening brace. -/
theorem extract_json_ok_iff (raw : String) :
    (∃ body, extract_json raw = .ok body) ↔
    ∃ i j : Nat, i < j ∧ raw.data[i]? = some '{' ∧ raw.data[j]? = some '}' := by
  have hfb : strFindChar '{' raw = findCharAux '{' raw.data ((0 : Nat) : Int) := rfl
  have hlb : strRFindChar '}' raw = rfindCharAux '}' raw.data ((0 : Nat) : Int) (-1) := rfl
  constructor
  · rintro ⟨body, hbody⟩
    obtain ⟨f, l, hfl, hf, -, hl, -, -⟩ := extract_json_ok_spec hbody
    exact ⟨f, l, hfl, hf, hl⟩
  · rintro ⟨i, j, hij, hbi, hbj⟩
    rcases findCharAux_spec '{' raw.data 0 with ⟨-, hf2⟩ | ⟨f, hf, hfbefore, hfval⟩
    · exact absurd hbi (hf2 i)
    rcases rfindCharAux_spec '}' raw.data 0 (-1) with ⟨-, hl2⟩ | ⟨l, hl, hlafter, hlval⟩
    · exact absurd hbj (hl2 j)
    simp only [Nat.zero_add] at hfval hlval
    have hif : f ≤ i := by
      by_contra hcon
      exact absurd hbi (hfbefore i (by omega))
    have hjl : j ≤ l := by
      by_contra hcon
      exact absurd hbj (hlafter j (by omega))
    have hfl : f < l := by omega
    have hcond : (((f : Nat) : Int) == -1 || ((l : Nat) : Int) == -1 ||
        decide (((l : Nat) : Int) ≤ ((f : Nat) : Int))) = false := by
      simp only [Bool.or_eq_false_iff, decide_eq_false_iff_not, beq_eq_false_iff_ne, ne_eq]
      refine ⟨⟨?_, ?_⟩, ?_⟩ <;> omega
    refine ⟨⟨(raw.data.drop f).take (l + 1 - f)⟩, ?_⟩
    simp only [extract_json]
    rw [hfb, hlb, hfval, hlval, hcond]
    simp

/-- C5 (amended): the loader extracts the substring from the first
opening brace to the last closing brace — succeeding exactly when a
closing brace occurs after an opening one — then parses it; a parse
failure (or no object) yields the malformed-config error.  No structural
validation happens during loading; the separate structural validator
(run on updates) only requires a `Dhcp4` mapping with a `subnet4` key,
without checking that the subnet list is non-empty or even a list. -/
theorem C5_load (parse : String → Option JVal) (raw : String) :
    ((∃ body, extract_json raw = .ok body) ↔
      ∃ i j : Nat, i < j ∧ raw.data[i]? = some '{' ∧ raw.data[j]? = some '}') ∧
    (∀ body, extract_json raw = .ok body →
      ∃ f l : Nat, f < l ∧ raw.data[f]? = some '{' ∧ (∀ j < f, raw.data[j]? ≠ some '{') ∧
        raw.data[l]? = some '}' ∧ (∀ j : Nat, l < j → raw.data[j]? ≠ some '}') ∧
        body.data = (raw.data.drop f).take (l + 1 - f)) ∧
    (∀ body, extract_json raw = .ok body →
      (parse body = none → get_config parse raw = .error ("Invalid JSON in config file")) ∧
      (∀ js, parse body = some js → get_config parse raw = .ok js)) ∧
    ((¬ ∃ body, extract_json raw = .ok body) →
      get_config parse raw = .error ("No valid JSON object found in config file")) ∧
    (∀ kvs, validate_config_structure (JVal.jobj kvs) = true ↔
      ∃ kvs2, kvs.lookup ("Dhcp4") = some (JVal.jobj kvs2) ∧
        ∃ kv ∈ kvs2, kv.1 = "subnet4") := by
  refine ⟨extract_json_ok_iff raw, fun body h => extract_json_ok_spec h, ?_, ?_, ?_⟩
  · intro body hbody
    constructor
    · intro hparse
      simp only [get_config, hbody, hparse]
    · intro js hparse
      simp only [get_config, hbody, hparse]
  · intro hno
    cases hE : extract_json raw with
    | ok body => exact absurd ⟨body, hE⟩ hno
    | error e =>
      simp only [get_config, hE, extract_json_error hE]
  · intro kvs
    cases hl : kvs.lookup ("Dhcp4") with
    | none =>
      simp only [validate_config_structure, hl]
      simp only [Bool.false_eq_true, false_iff]
      rintro ⟨kvs2, hl2, -⟩
      exact absurd hl2 (by simp)
    | some v =>
      cases v with
      | jobj kvs2 =>
        simp only [validate_config_structure, hl]
        simp only [List.any_eq_true, beq_iff_eq]
        constructor
        · rintro ⟨kv, hmem, hkey⟩
          exact ⟨kvs2, rfl, kv, hmem, hkey⟩
        · rintro ⟨kvs3, hsome, kv, hmem, hkey⟩
          have : kvs2 = kvs3 := by
            injection hsome with h
            injection h
          subst this
          exact ⟨kv, hmem, hkey⟩
      | jnull =>
        simp only [validate_config_structure, hl, Bool.false_eq_true, false_iff]
        rintro ⟨kvs2, hl2, -⟩
        exact absurd hl2 (by simp)
      | jbool b =>
        simp only [validate_config_structure, hl, Bool.false_eq_true, false_iff]
        rintro ⟨kvs2, hl2, -⟩
        exact absurd hl2 (by simp)
      | jnum n =>
        simp only [validate_config_structure, hl, Bool.false_eq_true, false_iff]
        rintro ⟨kvs2, hl2, -⟩
        exact absurd hl2 (by simp)
      | jstr s =>
        simp only [validate_config_structure, hl, Bool.false_eq_true, false_iff]
        rintro ⟨kvs2, hl2, -⟩
        exact absurd hl2 (by simp)
      | jarr xs =>
        simp only [validate_config_structure, hl, Bool.false_eq_true, false_iff]
        rintro ⟨kvs2, hl2, -⟩
        exact absurd hl2 (by simp)


/-- C5 counterexample: loading performs no structural validation — a
document without any DHCP section loads successfully — and the structural
validator itself accepts an empty subnet list. -/
theorem C5_counterexample :
    get_config miniParse ("noise \x7b\"x\": 1\x7d trailing") =
      .ok (JVal.jobj [(("x"), JVal.jnum 1)]) ∧
    validate_config_structure (JVal.jobj [(("x"), JVal.jnum 1)]) = false ∧
    validate_config_structure
      (JVal.jobj [(("Dhcp4"), JVal.jobj [(("subnet4"), JVal.jarr [])])]) = true :=
  ⟨rfl, rfl, rfl⟩

/-- Witness for C5: the extracted object text fails to parse, and the
loader reports the parse error. -/
theorem C5_load_witness :
    get_config miniParse ("ab\x7bc\x7dd") = .error ("Invalid JSON in config file") :=
  ((C5_load miniParse ("ab\x7bc\x7dd")).2.2.1 ("\x7bc\x7d") (by rfl)).1 (by rfl)

/-! ## Claim C3: lease reconciliation -/

theorem strTruthy_ne_empty {s : String} (h : strTruthy s = true) : s ≠ ("") := by
  rintro rfl
  exact absurd h (by decide)

/-- Inversion of the row filter. -/
theorem lease_row_qual_some {now : Int} {row : LeaseRow} {mac : String} {e st : Int}
    (h : lease_row_qual now row = some (mac, e, st)) :
    mac = row.hwaddr.getD ("") ∧ mac ≠ ("") ∧ st = 0 ∧ now < e := by
  unfold lease_row_qual at h
  cases hE : lease_expire_val row with
  | none => rw [hE] at h; simp at h
  | some e1 =>
    cases hS : lease_state_val row with
    | none => rw [hE, hS] at h; simp at h
    | some st1 =>
      rw [hE, hS] at h
      simp only at h
      cases hc : (st1 == 0 && decide (e1 > now)) with
      | false => rw [hc] at h; simp at h
      | true =>
        rw [hc] at h
        simp only [if_true] at h
        cases hT : strTruthy (row.hwaddr.getD ("")) with
        | false => rw [hT] at h; simp at h
        | true =>
          rw [hT] at h
          simp only [if_true, Option.some.injEq, Prod.mk.injEq] at h
          obtain ⟨hmac, he, hst⟩ := h
          simp only [Bool.and_eq_true_iff, beq_iff_eq, decide_eq_true_eq] at hc
          refine ⟨hmac.symm, ?_, by omega, by omega⟩
          rw [hmac] at hT
          exact strTruthy_ne_empty hT

theorem lookup_none_iff {β : Type _} (k : String) :
    ∀ (l : List (String × β)), l.lookup k = none ↔ ∀ p ∈ l, p.1 ≠ k
  | [] => by simp
  | (a, b) :: es => by
    cases hab : (k == a) with
    | true =>
      have : k = a := by simpa using hab
      subst this
      simp [List.lookup]
    | false =>
      have hne : a ≠ k := by
        have : ¬ k = a := by simpa using hab
        exact fun hc => this hc.symm
      rw [List.lookup]
      rw [hab]
      simp only [List.mem_cons]
      rw [lookup_none_iff k es]
      constructor
      · intro hall p hp
        rcases hp with rfl | hp
        · exact hne
        · exact hall p hp
      · intro hall p hp
        exact hall p (Or.inr hp)

theorem lookup_some_mem {β : Type _} (k : String) {v : β} :
    ∀ {l : List (String × β)}, l.lookup k = some v → (k, v) ∈ l
  | [], h => by simp at h
  | (a, b) :: es, h => by
    rw [List.lookup] at h
    cases hab : (k == a) with
    | true =>
      rw [hab] at h
      have hak : k = a := by simpa using hab
      have hbv : b = v := by simpa using h
      subst hak
      subst hbv
      exact List.mem_cons_self _ _
    | false =>
      rw [hab] at h
      exact List.mem_cons_of_mem _ (lookup_some_mem k h)

theorem assocReplace_keys {β : Type _} (k : String) (v : β) :
    ∀ (l : List (String × β)),
      (assocReplace k v l).map (fun p => p.1) = l.map (fun p => p.1)
  | [] => rfl
  | (a, b) :: es => by
    cases hab : (a == k) with
    | true => simp [assocReplace, hab]
    | false => simp [assocReplace, hab, assocReplace_keys k v es]

theorem mem_assocReplace_of_nodup {β : Type _} {k : String} {v : β} :
    ∀ {l : List (String × β)}, (l.map (fun p => p.1)).Nodup →
      ∀ p ∈ assocReplace k v l, p = (k, v) ∨ (p ∈ l ∧ p.1 ≠ k)
  | [], _, p, hp => by simp [assocReplace] at hp
  | (a, b) :: es, hnodup, p, hp => by
    have hnd2 : (es.map (fun p => p.1)).Nodup := (List.nodup_cons.mp hnodup).2
    have hanotin : a ∉ es.map (fun p => p.1) := (List.nodup_cons.mp hnodup).1
    rw [assocReplace] at hp
    cases hab : (a == k) with
    | true =>
      have hak : a = k := by simpa using hab
      subst hak
      rw [hab] at hp
      rcases List.mem_cons.mp hp with rfl | hp
      · exact Or.inl rfl
      · right
        refine ⟨List.mem_cons_of_mem _ hp, ?_⟩
        intro hpk
        exact hanotin (by rw [← hpk]; exact List.mem_map_of_mem _ hp)
    | false =>
      have hne : a ≠ k := by simpa using hab
      rw [hab] at hp
      rcases List.mem_cons.mp hp with rfl | hp
      · exact Or.inr ⟨List.mem_cons_self _ _, hne⟩
      · rcases mem_assocReplace_of_nodup hnd2 p hp with h | ⟨hmem, hpk⟩
        · exact Or.inl h
        · exact Or.inr ⟨List.mem_cons_of_mem _ hmem, hpk⟩

theorem nodup_key_unique {β : Type _} :
    ∀ {l : List (String × β)}, (l.map (fun p => p.1)).Nodup →
      ∀ p ∈ l, ∀ q ∈ l, p.1 = q.1 → p = q
  | [], _, p, hp, _q, _hq, _hpq => by simp at hp
  | (a, b) :: es, hnodup, p, hp, q, hq, hpq => by
    have hnd2 : (es.map (fun x => x.1)).Nodup := (List.nodup_cons.mp hnodup).2
    have hanotin : a ∉ es.map (fun x => x.1) := (List.nodup_cons.mp hnodup).1
    rcases List.mem_cons.mp hp with rfl | hp
    · rcases List.mem_cons.mp hq with rfl | hq
      · rfl
      · exfalso
        have hq1 : a = q.1 := hpq
        rw [hq1] at hanotin
        exact hanotin (List.mem_map_of_mem _ hq)
    · rcases List.mem_cons.mp hq with rfl | hq
      · exfalso
        have hp1 : p.1 = a := hpq
        rw [← hp1] at hanotin
        exact hanotin (List.mem_map_of_mem _ hp)
      · exact nodup_key_unique hnd2 p hp q hq hpq

/-- The invariant of the deduplicating fold: distinct keys; a key is
present exactly when a processed row qualifies for it; each entry carries
its key as hardware address, a printable expire equal to the maximum
expire among the processed qualifying rows of that key, and a witness
row. -/
def lease_inv (now : Int) (done : List LeaseRow)
    (acc : List (String × LeaseView × Int)) : Prop :=
  (acc.map (fun p => p.1)).Nodup ∧
  (∀ mac : String, (∃ p ∈ acc, p.1 = mac) ↔
    ∃ row ∈ done, ∃ e st : Int, lease_row_qual now row = some (mac, e, st)) ∧
  (∀ p ∈ acc, p.2.1.hw = p.1 ∧ p.1 ≠ ("") ∧ p.2.1.expire = intToStr p.2.2 ∧
    (∃ row ∈ done, ∃ st : Int, lease_row_qual now row = some (p.1, p.2.2, st)) ∧
    (∀ row ∈ done, ∀ e2 st2 : Int, lease_row_qual now row = some (p.1, e2, st2) →
      e2 ≤ p.2.2))

theorem exists_key_iff_mem_map {β : Type _} (l : List (String × β)) (m : String) :
    (∃ p ∈ l, p.1 = m) ↔ m ∈ l.map (fun p => p.1) := by
  rw [List.mem_map]

/-- One fold step preserves the reconciliation invariant. -/
theorem lease_step_inv {now : Int} {done : List LeaseRow}
    {acc : List (String × LeaseView × Int)} (row : LeaseRow)
    (hinv : lease_inv now done acc) :
    lease_inv now (done ++ [row]) (lease_step now acc row) := by
  obtain ⟨hnodup, hkeys, hprops⟩ := hinv
  cases hq : lease_row_qual now row with
  | none =>
    have hstep : lease_step now acc row = acc := by simp [lease_step, hq]
    rw [hstep]
    refine ⟨hnodup, ?_, ?_⟩
    · intro mac
      rw [hkeys mac]
      constructor
      · rintro ⟨r2, hmem, e, st, he⟩
        exact ⟨r2, List.mem_append_left _ hmem, e, st, he⟩
      · rintro ⟨r2, hmem, e, st, he⟩
        rcases List.mem_append.mp hmem with hmem | hmem
        · exact ⟨r2, hmem, e, st, he⟩
        · exfalso
          have hr : r2 = row := by simpa using hmem
          rw [hr, hq] at he
          exact absurd he (by simp)
    · intro p hp
      obtain ⟨h1, h2, h3, ⟨r2, hmem, st, he⟩, hmax⟩ := hprops p hp
      refine ⟨h1, h2, h3, ⟨r2, List.mem_append_left _ hmem, st, he⟩, ?_⟩
      intro r3 hmem3 e2 st2 he2
      rcases List.mem_append.mp hmem3 with hmem3 | hmem3
      · exact hmax r3 hmem3 e2 st2 he2
      · exfalso
        have hr : r3 = row := by simpa using hmem3
        rw [hr, hq] at he2
        exact absurd he2 (by simp)
  | some trip =>
    obtain ⟨mac, e, st⟩ := trip
    obtain ⟨hmac_eq, hmac_ne, hst0, hnow⟩ := lease_row_qual_some hq
    cases hlk : acc.lookup mac with
    | none =>
      have hstep : lease_step now acc row =
          acc ++ [(mac, lease_view_of row mac e st, e)] := by
        simp [lease_step, hq, hlk]
      have hnotin : ∀ p ∈ acc, p.1 ≠ mac := (lookup_none_iff mac acc).mp hlk
      rw [hstep]
      refine ⟨?_, ?_, ?_⟩
      · rw [List.map_append, List.nodup_append]
        refine ⟨hnodup, by simp, ?_⟩
        intro x hx hx2
        have hxm : x = mac := by simpa using hx2
        subst hxm
        obtain ⟨p, hp, hpk⟩ := (exists_key_iff_mem_map acc x).mpr hx
        exact hnotin p hp hpk
      · intro mac2
        constructor
        · rintro ⟨p, hmem, hpk⟩
          rcases List.mem_append.mp hmem with hmem | hmem
          · obtain ⟨r2, hr2, e2, st2, he2⟩ := (hkeys mac2).mp ⟨p, hmem, hpk⟩
            exact ⟨r2, List.mem_append_left _ hr2, e2, st2, he2⟩
          · have hp : p = (mac, lease_view_of row mac e st, e) := by simpa using hmem
            subst hp
            have hm : mac = mac2 := hpk
            subst hm
            exact ⟨row, List.mem_append_right _ (by simp), e, st, hq⟩
        · rintro ⟨r2, hmem, e2, st2, he2⟩
          rcases List.mem_append.mp hmem with hmem | hmem
          · obtain ⟨p, hp, hpk⟩ := (hkeys mac2).mpr ⟨r2, hmem, e2, st2, he2⟩
            exact ⟨p, List.mem_append_left _ hp, hpk⟩
          · have hr : r2 = row := by simpa using hmem
            rw [hr, hq] at he2
            have hmm : mac = mac2 := by
              simp only [Option.some.injEq, Prod.mk.injEq] at he2
              exact he2.1
            exact ⟨(mac, lease_view_of row mac e st, e),
              List.mem_append_right _ (by simp), hmm⟩
      · intro p hp
        rcases List.mem_append.mp hp with hp | hp
        · obtain ⟨h1, h2, h3, ⟨r2, hr2, st2, he2⟩, hmax⟩ := hprops p hp
          refine ⟨h1, h2, h3, ⟨r2, List.mem_append_left _ hr2, st2, he2⟩, ?_⟩
          intro r3 h3mem e3 st3 he3
          rcases List.mem_append.mp h3mem with h3mem | h3mem
          · exact hmax r3 h3mem e3 st3 he3
          · exfalso
            have hr : r3 = row := by simpa using h3mem
            rw [hr, hq] at he3
            have hmp : mac = p.1 := by
              simp only [Option.some.injEq, Prod.mk.injEq] at he3
              exact he3.1
            exact hnotin p hp hmp.symm
        · have hp2 : p = (mac, lease_view_of row mac e st, e) := by simpa using hp
          subst hp2
          refine ⟨rfl, hmac_ne, rfl,
            ⟨row, List.mem_append_right _ (by simp), st, hq⟩, ?_⟩
          intro r3 h3mem e3 st3 he3
          rcases List.mem_append.mp h3mem with h3mem | h3mem
          · exfalso
            obtain ⟨p2, hp2m, hp2k⟩ := (hkeys mac).mpr ⟨r3, h3mem, e3, st3, he3⟩
            exact hnotin p2 hp2m hp2k
          · have hr : r3 = row := by simpa using h3mem
            rw [hr, hq] at he3
            have hee : e = e3 := by
              simp only [Option.some.injEq, Prod.mk.injEq] at he3
              exact he3.2.1
            show e3 ≤ e
            omega
    | some pair =>
      obtain ⟨v0, e0⟩ := pair
      have hold_mem : (mac, (v0, e0)) ∈ acc := lookup_some_mem mac hlk
      by_cases hgt : e > e0
      · have hstep : lease_step now acc row =
            assocReplace mac (lease_view_of row mac e st, e) acc := by
          simp [lease_step, hq, hlk, hgt]
        rw [hstep]
        refine ⟨?_, ?_, ?_⟩
        · rw [assocReplace_keys]
          exact hnodup
        · intro mac2
          rw [exists_key_iff_mem_map, assocReplace_keys, ← exists_key_iff_mem_map,
            hkeys mac2]
          constructor
          · rintro ⟨r2, hr2, e2, st2, he2⟩
            exact ⟨r2, List.mem_append_left _ hr2, e2, st2, he2⟩
          · rintro ⟨r2, hr2, e2, st2, he2⟩
            rcases List.mem_append.mp hr2 with hr2 | hr2
            · exact ⟨r2, hr2, e2, st2, he2⟩
            · have hr : r2 = row := by simpa using hr2
              rw [hr, hq] at he2
              have hm2 : mac = mac2 := by
                simp only [Option.some.injEq, Prod.mk.injEq] at he2
                exact he2.1
              subst hm2
              exact (hkeys mac).mp ⟨(mac, (v0, e0)), hold_mem, rfl⟩
        · intro p hp
          rcases mem_assocReplace_of_nodup hnodup p hp with rfl | ⟨hmem, hpk⟩
          · refine ⟨rfl, hmac_ne, rfl,
              ⟨row, List.mem_append_right _ (by simp), st, hq⟩, ?_⟩
            intro r3 h3 e3 st3 he3
            rcases List.mem_append.mp h3 with h3 | h3
            · have hmaxold := (hprops (mac, (v0, e0)) hold_mem).2.2.2.2
              have he3' : lease_row_qual now r3 = some (mac, e3, st3) := he3
              have := hmaxold r3 h3 e3 st3 he3'
              show e3 ≤ e
              simp only at this
              omega
            · have hr : r3 = row := by simpa using h3
              rw [hr, hq] at he3
              have hee : e = e3 := by
                simp only [Option.some.injEq, Prod.mk.injEq] at he3
                exact he3.2.1
              show e3 ≤ e
              omega
          · obtain ⟨h1, h2, h3v, ⟨r2, hr2, st2, he2⟩, hmax⟩ := hprops p hmem
            refine ⟨h1, h2, h3v, ⟨r2, List.mem_append_left _ hr2, st2, he2⟩, ?_⟩
            intro r3 h3m e3 st3 he3
            rcases List.mem_append.mp h3m with h3m | h3m
            · exact hmax r3 h3m e3 st3 he3
            · exfalso
              have hr : r3 = row := by simpa using h3m
              rw [hr, hq] at he3
              have hmp : mac = p.1 := by
                simp only [Option.some.injEq, Prod.mk.injEq] at he3
                exact he3.1
              exact hpk hmp.symm
      · have hstep : lease_step now acc row = acc := by
          simp [lease_step, hq, hlk, hgt]
        rw [hstep]
        refine ⟨hnodup, ?_, ?_⟩
        · intro mac2
          rw [hkeys mac2]
          constructor
          · rintro ⟨r2, hr2, e2, st2, he2⟩
            exact ⟨r2, List.mem_append_left _ hr2, e2, st2, he2⟩
          · rintro ⟨r2, hr2, e2, st2, he2⟩
            rcases List.mem_append.mp hr2 with hr2 | hr2
            · exact ⟨r2, hr2, e2, st2, he2⟩
            · have hr : r2 = row := by simpa using hr2
              rw [hr, hq] at he2
              have hm2 : mac = mac2 := by
                simp only [Option.some.injEq, Prod.mk.injEq] at he2
                exact he2.1
              subst hm2
              exact (hkeys mac).mp ⟨(mac, (v0, e0)), hold_mem, rfl⟩
        · intro p hp
          obtain ⟨h1, h2, h3v, ⟨r2, hr2, st2, he2⟩, hmax⟩ := hprops p hp
          refine ⟨h1, h2, h3v, ⟨r2, List.mem_append_left _ hr2, st2, he2⟩, ?_⟩
          intro r3 h3m e3 st3 he3
          rcases List.mem_append.mp h3m with h3m | h3m
          · exact hmax r3 h3m e3 st3 he3
          · have hr : r3 = row := by simpa using h3m
            rw [hr, hq] at he3
            have hmp : mac = p.1 ∧ e = e3 := by
              simp only [Option.some.injEq, Prod.mk.injEq] at he3
              exact ⟨he3.1, he3.2.1⟩
            have hpe : p = (mac, (v0, e0)) :=
              nodup_key_unique hnodup p hp (mac, (v0, e0)) hold_mem (by rw [← hmp.1])
            rw [hpe]
            show e3 ≤ e0
            omega

/-- The fold preserves the invariant over any tail of rows. -/
theorem lease_foldl_inv (now : Int) :
    ∀ (rows done : List LeaseRow) (acc : List (String × LeaseView × Int)),
      lease_inv now done acc →
      lease_inv now (done ++ rows) (rows.foldl (lease_step now) acc)
  | [], done, acc, h => by simpa using h
  | row :: rest, done, acc, h => by
    have h1 := lease_step_inv row h
    have h2 := lease_foldl_inv now rest (done ++ [row]) (lease_step now acc row) h1
    simpa [List.append_assoc] using h2

/-- C3: lease reconciliation yields exactly one entry per distinct
non-empty hardware address having at least one surviving row (parseable
fields, `state == 0`, `expire > now`); that entry carries the greatest
such expire time; rows with a bad state, an expired or unparseable
timestamp, or an empty hardware address contribute nothing, and no row
ever fails the whole query (the reconciler is a total function). -/
theorem C3_lease_reconciliation (rows : List LeaseRow) (now : Int) :
    (∀ mac : String,
      (∃ l ∈ get_leases rows now, l.hw = mac) ↔
      (∃ row ∈ rows, ∃ e st : Int, lease_row_qual now row = some (mac, e, st))) ∧
    ((get_leases rows now).map (fun l => l.hw)).Nodup ∧
    (∀ l ∈ get_leases rows now, l.hw ≠ ("") ∧ ∃ e : Int, l.expire = intToStr e ∧
      (∃ row ∈ rows, ∃ st : Int, lease_row_qual now row = some (l.hw, e, st)) ∧
      (∀ row ∈ rows, ∀ e2 st2 : Int, lease_row_qual now row = some (l.hw, e2, st2) →
        e2 ≤ e)) := by
  have hbase : lease_inv now [] [] := by
    refine ⟨by simp, ?_, by simp⟩
    intro mac
    simp
  have hinv := lease_foldl_inv now rows [] [] hbase
  rw [List.nil_append] at hinv
  obtain ⟨hnodup, hkeys, hprops⟩ := hinv
  have hout : get_leases rows now =
      (rows.foldl (lease_step now) []).map (fun p => p.2.1) := rfl
  refine ⟨?_, ?_, ?_⟩
  · intro mac
    rw [← hkeys mac, hout]
    constructor
    · rintro ⟨l, hl, hlm⟩
      obtain ⟨p, hp, hpl⟩ := List.mem_map.mp hl
      refine ⟨p, hp, ?_⟩
      rw [← (hprops p hp).1, hpl, hlm]
    · rintro ⟨p, hp, hpk⟩
      refine ⟨p.2.1, List.mem_map_of_mem _ hp, ?_⟩
      rw [(hprops p hp).1, hpk]
  · rw [hout, List.map_map]
    have hcongr : (rows.foldl (lease_step now) []).map ((fun l => l.hw) ∘ (fun p => p.2.1)) =
        (rows.foldl (lease_step now) []).map (fun p => p.1) := by
      apply List.map_congr_left
      intro p hp
      exact (hprops p hp).1
    rw [hcongr]
    exact hnodup
  · intro l hl
    rw [hout] at hl
    obtain ⟨p, hp, hpl⟩ := List.mem_map.mp hl
    obtain ⟨h1, h2, h3, hwit, hmax⟩ := hprops p hp
    have hlw : l.hw = p.1 := by rw [← hpl, h1]
    refine ⟨by rw [hlw]; exact h2, p.2.2, by rw [← hpl]; exact h3, ?_, ?_⟩
    · rw [hlw]
      exact hwit
    · intro r3 h3m e2 st2 he2
      rw [hlw] at he2
      exact hmax r3 h3m e2 st2 he2

/-- The spec's reconciliation example: two active rows for one client. -/
def c3rows : List LeaseRow :=
  [{ address := some ("192.168.123.111"), hwaddr := some ("aa:bb:cc:dd:ee:ff")
     expire := some ("100"), state := some ("0"), hostname := some ("h1") },
   { address := some ("192.168.123.112"), hwaddr := some ("aa:bb:cc:dd:ee:ff")
     expire := some ("200"), state := some ("0"), hostname := some ("h2") }]

/-- Witness for C3 at the spec's renewal example (`now = 50`). -/
theorem C3_lease_reconciliation_witness :
    (∃ l ∈ get_leases c3rows 50, l.hw = ("aa:bb:cc:dd:ee:ff")) ∧
    (∀ l ∈ get_leases c3rows 50, l.hw ≠ ("")) :=
  ⟨((C3_lease_reconciliation c3rows 50).1 ("aa:bb:cc:dd:ee:ff")).mpr
      ⟨{ address := some ("192.168.123.112"), hwaddr := some ("aa:bb:cc:dd:ee:ff")
         expire := some ("200"), state := some ("0"), hostname := some ("h2") },
        by simp [c3rows], 200, 0, by rfl⟩,
    fun l hl => ((C3_lease_reconciliation c3rows 50).2.2 l hl).1⟩

end Dhcp
